import Mathlib

set_option maxRecDepth 8000

/-!
Shallow embedding of the `parse-helper` crate (a scanning cursor over a
borrowed byte / UTF-8 string buffer) and proofs about its operations.

The Rust type `ParseHelper<'a, T, B>` (src/lib.rs) holds a borrowed input
buffer `input : &'a T`, a mutable `byte_position : usize` and a zero-sized
boundary-mode tag `B` (`Byte` or `Char`, src/boundary.rs).  We model the
buffer as a list of bytes (`List Nat`, values < 256 in real buffers) and the
cursor as a structure with the same two data fields; the mode tag is
compile-time-only in Rust and carries no state, so byte-mode and char-mode
methods simply live side by side here.  Methods that mutate `self` are
modelled as state-passing functions returning the result together with the
new cursor; a Rust panic (assertion failure) is modelled as `none`.
-/

/-- The cursor from `src/lib.rs`: a borrowed input buffer and a byte offset. -/
structure ParseHelper where
  input : List Nat
  byte_position : Nat
deriving DecidableEq

namespace ParseHelper

/-- `bytes_left` from `src/any.rs`: `self.as_ref().len() - self.byte_position`. -/
def bytes_left (ph : ParseHelper) : Nat :=
  ph.input.length - ph.byte_position

/-- `done` from `src/any.rs`: `self.bytes_left() == 0`. -/
def done (ph : ParseHelper) : Bool :=
  bytes_left ph == 0

/-- `bytes_accepted` from `src/any.rs`: returns `byte_position`. -/
def bytes_accepted (ph : ParseHelper) : Nat :=
  ph.byte_position

/-- `upcoming_byte` from `src/any.rs`: `self.input.as_ref().get(self.byte_position).copied()`. -/
def upcoming_byte (ph : ParseHelper) : Option Nat :=
  ph.input.get? ph.byte_position

/-- Byte-mode `leftover` from `src/byte.rs`: `&self.input.as_ref()[self.byte_position..]`. -/
def leftover (ph : ParseHelper) : List Nat :=
  ph.input.drop ph.byte_position

/-- The sub-slice `l[a..b]` of a buffer (the half-open range used throughout the crate). -/
def sliceBytes (l : List Nat) (a b : Nat) : List Nat :=
  (l.drop a).take (b - a)

/-- `skip_bytes` from `src/byte.rs`: asserts `n <= self.bytes_left()` (panic modelled
as `none`), then `self.byte_position += n`. -/
def skip_bytes (ph : ParseHelper) (n : Nat) : Option ParseHelper :=
  if n ≤ bytes_left ph then
    some { ph with byte_position := ph.byte_position + n }
  else
    none

/-- `skip_byte` from `src/byte.rs`: `self.skip_bytes(1)`. -/
def skip_byte (ph : ParseHelper) : Option ParseHelper :=
  skip_bytes ph 1

/-- Byte-mode `accept` from `src/byte.rs`: match the literal byte sequence at the
current offset; on success advance past it and return the matched view.  The
source binds `equivalent_input = input[byte_position..byte_position+bytes.len()]`
and both compares against it and returns it; here that binding is written out as
`sliceBytes ph.input ph.byte_position (ph.byte_position + bytes.length)`. -/
def accept (ph : ParseHelper) (bytes : List Nat) : Option (List Nat) × ParseHelper :=
  if bytes.length > bytes_left ph then
    (none, ph)
  else
    if bytes = sliceBytes ph.input ph.byte_position (ph.byte_position + bytes.length) then
      (some (sliceBytes ph.input ph.byte_position (ph.byte_position + bytes.length)),
        { ph with byte_position := ph.byte_position + bytes.length })
    else
      (none, ph)

/-- `accept_byte_with` from `src/byte.rs`: take the upcoming byte if the predicate
holds.  The source advances with `skip_byte`, whose assertion `1 ≤ bytes_left`
provably succeeds because an upcoming byte exists, so the success path is the
plain increment. -/
def accept_byte_with (ph : ParseHelper) (f : Nat → Bool) : Option Nat × ParseHelper :=
  match upcoming_byte ph with
  | none => (none, ph)
  | some b =>
    if f b then
      (some b, { ph with byte_position := ph.byte_position + 1 })
    else
      (none, ph)

/-- `accept_byte` from `src/byte.rs`: `self.accept_byte_with(|x| c == x).is_some()`. -/
def accept_byte (ph : ParseHelper) (c : Nat) : Bool × ParseHelper :=
  let r := accept_byte_with ph (fun x => c == x)
  (r.1.isSome, r.2)

/-- The loop of `accept_until_byte_with` from `src/byte.rs`: starting at `pos`,
advance one byte at a time while the upcoming byte exists and does not satisfy
`f`; return the final position. -/
def until_byte_end (l : List Nat) (f : Nat → Bool) (pos : Nat) : Nat :=
  match h : l.get? pos with
  | none => pos
  | some b =>
    if f b then pos else until_byte_end l f (pos + 1)
termination_by l.length - pos
decreasing_by
  have hlt : pos < l.length := by
    by_contra hge
    rw [List.get?_eq_none.mpr (Nat.le_of_not_lt hge)] at h
    exact Option.noConfusion h
  omega

/-- `accept_until_byte_with` from `src/byte.rs`: run the loop, then return the
consumed span `input[start..end]` (`get_unchecked` in the source) and the
advanced cursor. -/
def accept_until_byte_with (ph : ParseHelper) (f : Nat → Bool) : List Nat × ParseHelper :=
  let start := ph.byte_position
  let e := until_byte_end ph.input f start
  (sliceBytes ph.input start e, { ph with byte_position := e })

/-- `accept_until_byte` from `src/byte.rs`: `accept_until_byte_with(|x| x == c)`. -/
def accept_until_byte (ph : ParseHelper) (c : Nat) : List Nat × ParseHelper :=
  accept_until_byte_with ph (fun x => x == c)

/-! ### UTF-8

The char-mode cursor works on a buffer that is a valid UTF-8 encoded string
(`T: AsRef<str>`).  We model the UTF-8 encoding of a Unicode scalar value as
in RFC 3629 (which is what Rust's `str` guarantees, what `char::len_utf8`
computes and what `str::is_char_boundary` relies on). -/

/-- A UTF-8 continuation byte: high bits `10xxxxxx`, i.e. `0x80 ≤ b < 0xC0`. -/
def contByte (b : Nat) : Bool :=
  decide (0x80 ≤ b) && decide (b < 0xC0)

/-- A Unicode scalar value (what Rust's `char` holds): below `0x110000` and
not a surrogate. -/
def IsScalar (c : Nat) : Bool :=
  decide (c < 0x110000) && !(decide (0xD800 ≤ c) && decide (c < 0xE000))

/-- `char::len_utf8`: the number of bytes of the UTF-8 encoding of `c`. -/
def utf8Len (c : Nat) : Nat :=
  if c < 0x80 then 1
  else if c < 0x800 then 2
  else if c < 0x10000 then 3
  else 4

/-- The UTF-8 encoding of the scalar value `c`. -/
def utf8Encode (c : Nat) : List Nat :=
  if c < 0x80 then [c]
  else if c < 0x800 then [0xC0 + c / 64, 0x80 + c % 64]
  else if c < 0x10000 then [0xE0 + c / 4096, 0x80 + c / 64 % 64, 0x80 + c % 64]
  else [0xF0 + c / 262144, 0x80 + c / 4096 % 64, 0x80 + c / 64 % 64, 0x80 + c % 64]

/-- Strict UTF-8 decoding of the first scalar value of a byte list (rejecting
overlong forms, surrogates and out-of-range values, as Rust's `str` validation
does).  Returns the decoded scalar value, or `none` if the list is empty or
does not start with a valid encoding. -/
def decodeUtf8? : List Nat → Option Nat
  | [] => none
  | b0 :: rest =>
    if b0 < 0x80 then some b0
    else if b0 < 0xC2 then none
    else if b0 < 0xE0 then
      match rest with
      | [] => none
      | b1 :: _ =>
        if contByte b1 then some ((b0 - 0xC0) * 64 + (b1 - 0x80)) else none
    else if b0 < 0xF0 then
      match rest with
      | b1 :: b2 :: _ =>
        if contByte b1 && contByte b2 then
          let c := (b0 - 0xE0) * 4096 + (b1 - 0x80) * 64 + (b2 - 0x80)
          if decide (0x800 ≤ c) && IsScalar c then some c else none
        else none
      | _ => none
    else if b0 < 0xF5 then
      match rest with
      | b1 :: b2 :: b3 :: _ =>
        if contByte b1 && contByte b2 && contByte b3 then
          let c := (b0 - 0xF0) * 262144 + (b1 - 0x80) * 4096 + (b2 - 0x80) * 64 + (b3 - 0x80)
          if decide (0x10000 ≤ c) && decide (c < 0x110000) then some c else none
        else none
      | _ => none
    else none

/-- A byte list is a valid UTF-8 string: a concatenation of encodings of
Unicode scalar values. -/
inductive ValidUTF8 : List Nat → Prop
  | nil : ValidUTF8 []
  | cons {c : Nat} {rest : List Nat} :
      IsScalar c = true → ValidUTF8 rest → ValidUTF8 (utf8Encode c ++ rest)

/-- `str::is_char_boundary` from Rust's core library, which
`is_at_utf8_boundary` (src/byte.rs) calls: `0` is always a boundary; past that,
the position is a boundary iff it equals the length (when indexing finds no
byte) or the byte there is not a continuation byte. -/
def is_char_boundary (l : List Nat) (i : Nat) : Bool :=
  if i == 0 then true
  else
    match l.get? i with
    | none => i == l.length
    | some b => !contByte b

/-! ### Char-mode operations (src/string.rs) -/

/-- `upcoming_char` from `src/string.rs`: `none` when `leftover` is empty,
otherwise the first codepoint of the leftover (the source decodes with
`chars().next()`, which cannot fail on the valid suffix of a `str`). -/
def upcoming_char (ph : ParseHelper) : Option Nat :=
  decodeUtf8? (leftover ph)

/-- `accept_char_with` from `src/string.rs`: take the upcoming char if the
predicate holds, advancing by `len_utf8` and returning the consumed span
`input[old_pos..new_pos]` (`get_unchecked` in the source). -/
def accept_char_with (ph : ParseHelper) (f : Nat → Bool) : Option (List Nat) × ParseHelper :=
  match upcoming_char ph with
  | none => (none, ph)
  | some c =>
    if f c then
      let old_pos := ph.byte_position
      let new_pos := old_pos + utf8Len c
      (some (sliceBytes ph.input old_pos new_pos), { ph with byte_position := new_pos })
    else
      (none, ph)

/-- `accept_char` from `src/string.rs`: `accept_char_with(|x| x == c)`. -/
def accept_char (ph : ParseHelper) (c : Nat) : Option (List Nat) × ParseHelper :=
  accept_char_with ph (fun x => x == c)

/-- Char-mode `accept` from `src/string.rs`: delegates to the byte-mode
`accept` on the needle's UTF-8 bytes (`str.as_ref().as_bytes()`) and re-views
the accepted bytes as a string. -/
def acceptStr (ph : ParseHelper) (s : List Nat) : Option (List Nat) × ParseHelper :=
  accept ph s

/-- The loop of `accept_until_char_with` from `src/string.rs`: starting at
`pos`, while an upcoming char exists and does not satisfy `f`, advance by its
`len_utf8`; return the final position. -/
def until_char_end (l : List Nat) (f : Nat → Bool) (pos : Nat) : Nat :=
  match h : decodeUtf8? (l.drop pos) with
  | none => pos
  | some c =>
    if f c then pos else until_char_end l f (pos + utf8Len c)
termination_by l.length - pos
decreasing_by
  have hne : l.drop pos ≠ [] := by
    intro he
    rw [he] at h
    exact Option.noConfusion h
  have hlt : pos < l.length := by
    by_contra hge
    exact hne (List.drop_eq_nil_of_le (Nat.le_of_not_lt hge))
  have h1 : 1 ≤ utf8Len c := by
    unfold utf8Len
    split
    · omega
    · split
      · omega
      · split <;> omega
  omega

/-- `accept_until_char_with` from `src/string.rs`: run the loop, then return
the consumed span `input[start..end]` (`get_unchecked` in the source) and the
advanced cursor. -/
def accept_until_char_with (ph : ParseHelper) (f : Nat → Bool) : List Nat × ParseHelper :=
  let start := ph.byte_position
  let e := until_char_end ph.input f start
  (sliceBytes ph.input start e, { ph with byte_position := e })

/-- `accept_until_char` from `src/string.rs`: `accept_until_char_with(|x| x == c)`. -/
def accept_until_char (ph : ParseHelper) (c : Nat) : List Nat × ParseHelper :=
  accept_until_char_with ph (fun x => x == c)

/-- `char::is_whitespace` (the Unicode `White_Space` property), used by the
whitespace helpers of `src/string.rs`. -/
def is_whitespace (c : Nat) : Bool :=
  (decide (0x09 ≤ c) && decide (c ≤ 0x0D)) || c == 0x20 || c == 0x85 || c == 0xA0 ||
    c == 0x1680 || (decide (0x2000 ≤ c) && decide (c ≤ 0x200A)) || c == 0x2028 ||
    c == 0x2029 || c == 0x202F || c == 0x205F || c == 0x3000

/-- `accept_until_whitespace` from `src/string.rs`. -/
def accept_until_whitespace (ph : ParseHelper) : List Nat × ParseHelper :=
  accept_until_char_with ph (fun x => is_whitespace x)

/-- `accept_whitespace` from `src/string.rs`. -/
def accept_whitespace (ph : ParseHelper) : Option (List Nat) × ParseHelper :=
  accept_char_with ph (fun i => is_whitespace i)

/-- `accept_zero_or_more_whitespace` from `src/string.rs`. -/
def accept_zero_or_more_whitespace (ph : ParseHelper) : List Nat × ParseHelper :=
  accept_until_char_with ph (fun x => !is_whitespace x)

/-- `accept_one_or_more_whitespace` from `src/string.rs`: fail unless the
upcoming char is whitespace, else accept up to the first non-whitespace. -/
def accept_one_or_more_whitespace (ph : ParseHelper) : Option (List Nat) × ParseHelper :=
  match upcoming_char ph with
  | none => (none, ph)
  | some c =>
    if !is_whitespace c then (none, ph)
    else
      let r := accept_until_char_with ph (fun x => !is_whitespace x)
      (some r.1, r.2)

/-! ### Mode bridge (src/byte.rs) -/

/-- `is_at_utf8_boundary` from `src/byte.rs`:
`self.input.as_ref().is_char_boundary(self.byte_position)`. -/
def is_at_utf8_boundary (ph : ParseHelper) : Bool :=
  is_char_boundary ph.input ph.byte_position

/-- `into_char_oriented` from `src/byte.rs`: if at a boundary, the same cursor
reinterpreted in char mode (only the zero-sized tag changes); otherwise `none`. -/
def into_char_oriented (ph : ParseHelper) : Option ParseHelper :=
  if !is_at_utf8_boundary ph then none else some ph

/-- `skip_to_next_utf8_char_boundary` from `src/byte.rs`:
`while !is_at_utf8_boundary { skip_byte() }`.  `skip_byte`'s assertion
(`1 ≤ bytes_left`, i.e. `byte_position < len`) failing is modelled as `none`. -/
def skip_to_next_utf8_char_boundary (ph : ParseHelper) : Option ParseHelper :=
  if is_at_utf8_boundary ph then some ph
  else if ph.byte_position < ph.input.length then
    skip_to_next_utf8_char_boundary { ph with byte_position := ph.byte_position + 1 }
  else none
termination_by ph.input.length - ph.byte_position
decreasing_by
  show ph.input.length - (ph.byte_position + 1) < ph.input.length - ph.byte_position
  omega

/-- `skip_into_char_oriented` from `src/byte.rs`: skip to the next boundary,
then the checked conversion (the source's `unwrap_unchecked` asserts it cannot
fail there). -/
def skip_into_char_oriented (ph : ParseHelper) : Option ParseHelper :=
  (skip_to_next_utf8_char_boundary ph).bind into_char_oriented

/-! ### Marks, slicing and closure-based slicing (src/any.rs) -/

/-- `mark` from `src/any.rs`: captures the current `byte_position`. -/
def mark (ph : ParseHelper) : Nat :=
  ph.byte_position

/-- `create_backup` from `src/any.rs`: a clone of the cursor. -/
def create_backup (ph : ParseHelper) : ParseHelper :=
  ph

/-- `restore_backup` from `src/any.rs`: overwrites `self` with the backup. -/
def restore_backup (_ph other : ParseHelper) : ParseHelper :=
  other

/-- Slicing with a half-open mark range, `&inp[a..b]` as used by
`slice(start..end)` in `src/any.rs`.  Rust's range indexing panics (modelled
as `none`) when `a > b` or `b > len`; the source keeps these bounds checks
("do not remove bounds checks for this"). -/
def sliceRange (l : List Nat) (a b : Nat) : Option (List Nat) :=
  if a ≤ b ∧ b ≤ l.length then some (sliceBytes l a b) else none

/-- `slice_accepted` from `src/any.rs`: mark (`start`), run the closure, mark
again (`end`), and return the closure's result together with
`slice(start..end)` of the final cursor's input.  A panic of the slice
indexing is `none`.  The closure runs once; its result is written
`closure ph` throughout. -/
def slice_accepted {P : Type} (ph : ParseHelper) (closure : ParseHelper → P × ParseHelper) :
    Option ((P × List Nat) × ParseHelper) :=
  (sliceRange (closure ph).2.input (mark ph) (mark (closure ph).2)).map
    (fun s => (((closure ph).1, s), (closure ph).2))

/-- `slice_accepted_option` from `src/any.rs`: back up (`old`), run
`slice_accepted`; if the closure produced `some`, return the span, otherwise
restore the backup and return `none`.  The outer `none` is a panic propagated
from the slicing. -/
def slice_accepted_option (ph : ParseHelper)
    (closure : ParseHelper → Option Unit × ParseHelper) :
    Option (Option (List Nat) × ParseHelper) :=
  match slice_accepted ph closure with
  | none => none
  | some ((accepted, s), ph2) =>
    match accepted with
    | some _ => some (some s, ph2)
    | none => some (none, restore_backup ph2 (create_backup ph))

/-! ### Operation alphabets for the sequence claims

`CharOp` enumerates the operations exposed on a Char-mode cursor that the
boundary-invariant claim quantifies over; `CursorOp` enumerates the mutating
operations of both modes for the position-bounds claim.  Applying an
operation yields the cursor state after the call (for fallible skips, a panic
leaves no post-state, so the pre-state is kept). -/

/-- One exposed Char-mode operation.  A literal `accept` carries the proof
that its needle is a UTF-8 string (in Rust the needle is `impl AsRef<str>`). -/
inductive CharOp : Type
  | char_with (f : Nat → Bool)
  | char (c : Nat)
  | lit (s : List Nat) (hs : ValidUTF8 s)
  | until_char_with (f : Nat → Bool)
  | until_char (c : Nat)
  | until_ws
  | ws
  | zero_or_more_ws
  | one_or_more_ws

/-- The cursor state after one Char-mode operation. -/
def applyCharOp (ph : ParseHelper) : CharOp → ParseHelper
  | .char_with f => (accept_char_with ph f).2
  | .char c => (accept_char ph c).2
  | .lit s _ => (acceptStr ph s).2
  | .until_char_with f => (accept_until_char_with ph f).2
  | .until_char c => (accept_until_char ph c).2
  | .until_ws => (accept_until_whitespace ph).2
  | .ws => (accept_whitespace ph).2
  | .zero_or_more_ws => (accept_zero_or_more_whitespace ph).2
  | .one_or_more_ws => (accept_one_or_more_whitespace ph).2

/-- The cursor state after a sequence of Char-mode operations. -/
def runCharOps (ph : ParseHelper) (ops : List CharOp) : ParseHelper :=
  ops.foldl applyCharOp ph

/-- One exposed mutating operation, of either mode. -/
inductive CursorOp : Type
  | skipn (n : Nat)
  | skip1
  | lit (s : List Nat)
  | byte (c : Nat)
  | byte_with (f : Nat → Bool)
  | until_byte_with (f : Nat → Bool)
  | until_byte (c : Nat)
  | char_with (f : Nat → Bool)
  | char (c : Nat)
  | until_char_with (f : Nat → Bool)
  | until_char (c : Nat)
  | until_ws
  | ws
  | zero_or_more_ws
  | one_or_more_ws
  | to_boundary

/-- The cursor state after one operation (a panicking skip has no
post-state; the pre-state is kept). -/
def applyCursorOp (ph : ParseHelper) : CursorOp → ParseHelper
  | .skipn n => (skip_bytes ph n).getD ph
  | .skip1 => (skip_byte ph).getD ph
  | .lit s => (accept ph s).2
  | .byte c => (accept_byte ph c).2
  | .byte_with f => (accept_byte_with ph f).2
  | .until_byte_with f => (accept_until_byte_with ph f).2
  | .until_byte c => (accept_until_byte ph c).2
  | .char_with f => (accept_char_with ph f).2
  | .char c => (accept_char ph c).2
  | .until_char_with f => (accept_until_char_with ph f).2
  | .until_char c => (accept_until_char ph c).2
  | .until_ws => (accept_until_whitespace ph).2
  | .ws => (accept_whitespace ph).2
  | .zero_or_more_ws => (accept_zero_or_more_whitespace ph).2
  | .one_or_more_ws => (accept_one_or_more_whitespace ph).2
  | .to_boundary => (skip_to_next_utf8_char_boundary ph).getD ph

/-- The cursor state after a sequence of operations. -/
def runCursorOps (ph : ParseHelper) (ops : List CursorOp) : ParseHelper :=
  ops.foldl applyCursorOp ph

/-- Executable UTF-8 validity check: repeatedly decode one scalar value. -/
def validUtf8B (l : List Nat) : Bool :=
  match h : decodeUtf8? l with
  | none => l.isEmpty
  | some c => validUtf8B (l.drop (utf8Len c))
termination_by l.length
decreasing_by
  have hne : l ≠ [] := by
    intro he
    rw [he] at h
    exact Option.noConfusion h
  have h1 : 1 ≤ utf8Len c := by
    unfold utf8Len
    split
    · omega
    · split
      · omega
      · split <;> omega
  have h2 : l.length ≠ 0 := fun h0 => hne (List.length_eq_zero.mp h0)
  simp only [List.length_drop]
  omega

/-- The boundary condition exactly as the specification words it: a position
is a boundary iff it is 0, equal to the buffer length, or the byte at that
position does not begin with a UTF-8 continuation-byte pattern. -/
def boundary_spec (l : List Nat) (i : Nat) : Prop :=
  i = 0 ∨ i = l.length ∨ ∃ b, l.get? i = some b ∧ contByte b = false

/-- The Char-mode cursor invariant: the buffer is a valid UTF-8 string, the
offset is in range, and the suffix at the offset is itself valid UTF-8 (which,
on a valid buffer, is equivalent to the offset being a codepoint boundary). -/
def CharInv (ph : ParseHelper) : Prop :=
  ValidUTF8 ph.input ∧ ph.byte_position ≤ ph.input.length ∧
    ValidUTF8 (ph.input.drop ph.byte_position)

/-! ### Basic facts about the UTF-8 encoding -/

theorem utf8Len_pos (c : Nat) : 1 ≤ utf8Len c := by
  unfold utf8Len
  split
  · omega
  · split
    · omega
    · split <;> omega

theorem utf8Len_le_four (c : Nat) : utf8Len c ≤ 4 := by
  unfold utf8Len
  split
  · omega
  · split
    · omega
    · split <;> omega

theorem utf8Encode_length (c : Nat) : (utf8Encode c).length = utf8Len c := by
  unfold utf8Encode utf8Len
  split
  · rfl
  · split
    · rfl
    · split <;> rfl

theorem utf8Encode_ne_nil (c : Nat) : utf8Encode c ≠ [] := by
  intro h
  have hl := utf8Encode_length c
  rw [h] at hl
  have hp := utf8Len_pos c
  rw [← hl] at hp
  simp at hp

theorem contByte_true_iff (b : Nat) : contByte b = true ↔ 0x80 ≤ b ∧ b < 0xC0 := by
  simp [contByte]

theorem contByte_false_iff (b : Nat) : contByte b = false ↔ b < 0x80 ∨ 0xC0 ≤ b := by
  simp [contByte]
  omega

theorem IsScalar_true_iff (c : Nat) :
    IsScalar c = true ↔ c < 0x110000 ∧ (c < 0xD800 ∨ 0xE000 ≤ c) := by
  simp [IsScalar]

/-- The first byte of an encoding is not a continuation byte, and all the
following bytes are continuation bytes. -/
theorem utf8Encode_shape (c : Nat) :
    ∃ b0 tl, utf8Encode c = b0 :: tl ∧ contByte b0 = false ∧
      ∀ b ∈ tl, contByte b = true := by
  unfold utf8Encode
  split
  · exact ⟨c, [], rfl, (contByte_false_iff _).mpr (by omega), by simp⟩
  · split
    · refine ⟨_, _, rfl, (contByte_false_iff _).mpr (by omega), ?_⟩
      intro b hb
      simp at hb
      subst hb
      exact (contByte_true_iff _).mpr (by omega)
    · split
      · refine ⟨_, _, rfl, (contByte_false_iff _).mpr (by omega), ?_⟩
        intro b hb
        simp at hb
        rcases hb with hb | hb <;> subst hb <;> exact (contByte_true_iff _).mpr (by omega)
      · refine ⟨_, _, rfl, (contByte_false_iff _).mpr (by omega), ?_⟩
        intro b hb
        simp at hb
        rcases hb with hb | hb | hb <;> subst hb <;> exact (contByte_true_iff _).mpr (by omega)

/-- Decoding an encoding prepended to anything gives back the scalar value. -/
theorem decode_encode (c : Nat) (hc : IsScalar c = true) (rest : List Nat) :
    decodeUtf8? (utf8Encode c ++ rest) = some c := by
  have hscal : c < 0x110000 ∧ (c < 0xD800 ∨ 0xE000 ≤ c) := (IsScalar_true_iff c).mp hc
  rcases Nat.lt_or_ge c 0x80 with h1 | h1
  · have he : utf8Encode c = [c] := by
      unfold utf8Encode
      rw [if_pos h1]
    rw [he]
    simp only [List.cons_append, List.nil_append, decodeUtf8?]
    rw [if_pos h1]
  · rcases Nat.lt_or_ge c 0x800 with h2 | h2
    · have he : utf8Encode c = [0xC0 + c / 64, 0x80 + c % 64] := by
        unfold utf8Encode
        rw [if_neg (by omega), if_pos h2]
      rw [he]
      have hb1 : contByte (0x80 + c % 64) = true := (contByte_true_iff _).mpr (by omega)
      simp only [List.cons_append, List.nil_append, decodeUtf8?, hb1]
      rw [if_neg (by omega), if_neg (by omega), if_pos (by omega)]
      simp only [if_true]
      have hval2 : (0xC0 + c / 64 - 0xC0) * 64 + (0x80 + c % 64 - 0x80) = c := by omega
      rw [hval2]
    · rcases Nat.lt_or_ge c 0x10000 with h3 | h3
      · have he : utf8Encode c = [0xE0 + c / 4096, 0x80 + c / 64 % 64, 0x80 + c % 64] := by
          unfold utf8Encode
          rw [if_neg (by omega), if_neg (by omega), if_pos h3]
        rw [he]
        have hb1 : contByte (0x80 + c / 64 % 64) = true := (contByte_true_iff _).mpr (by omega)
        have hb2 : contByte (0x80 + c % 64) = true := (contByte_true_iff _).mpr (by omega)
        have hval : (0xE0 + c / 4096 - 0xE0) * 4096 + (0x80 + c / 64 % 64 - 0x80) * 64 +
            (0x80 + c % 64 - 0x80) = c := by
          omega
        simp only [List.cons_append, List.nil_append, decodeUtf8?, hb1, hb2, Bool.and_self,
          if_true, hval]
        rw [if_neg (by omega), if_neg (by omega), if_neg (by omega), if_pos (by omega)]
        have hok : (decide (0x800 ≤ c) && IsScalar c) = true := by
          simp only [Bool.and_eq_true, decide_eq_true_eq, IsScalar_true_iff]
          omega
        simp [hok]
      · have he : utf8Encode c =
            [0xF0 + c / 262144, 0x80 + c / 4096 % 64, 0x80 + c / 64 % 64, 0x80 + c % 64] := by
          unfold utf8Encode
          rw [if_neg (by omega), if_neg (by omega), if_neg (by omega)]
        rw [he]
        have hb1 : contByte (0x80 + c / 4096 % 64) = true := (contByte_true_iff _).mpr (by omega)
        have hb2 : contByte (0x80 + c / 64 % 64) = true := (contByte_true_iff _).mpr (by omega)
        have hb3 : contByte (0x80 + c % 64) = true := (contByte_true_iff _).mpr (by omega)
        have hval : (0xF0 + c / 262144 - 0xF0) * 262144 + (0x80 + c / 4096 % 64 - 0x80) * 4096 +
            (0x80 + c / 64 % 64 - 0x80) * 64 + (0x80 + c % 64 - 0x80) = c := by
          omega
        simp only [List.cons_append, List.nil_append, decodeUtf8?, hb1, hb2, hb3, Bool.and_self,
          if_true, hval]
        rw [if_neg (by omega), if_neg (by omega), if_neg (by omega), if_neg (by omega),
          if_pos (by omega)]
        have hok : (decide (0x10000 ≤ c) && decide (c < 0x110000)) = true := by
          simp only [Bool.and_eq_true, decide_eq_true_eq]
          omega
        simp [hok]

/-- Reconstructing a 2-byte encoding from its decoded bytes. -/
theorem utf8Encode_eq_two {c b0 b1 : Nat} (hb0 : 0xC2 ≤ b0) (hb0' : b0 < 0xE0)
    (hb1 : 0x80 ≤ b1) (hb1' : b1 < 0xC0) (hc : (b0 - 0xC0) * 64 + (b1 - 0x80) = c) :
    utf8Encode c = [b0, b1] ∧ utf8Len c = 2 ∧ IsScalar c = true := by
  have hc2 : c < 0x800 := by omega
  refine ⟨?_, ?_, (IsScalar_true_iff _).mpr (by omega)⟩
  · unfold utf8Encode
    rw [if_neg (by omega), if_pos hc2]
    have e1 : 0xC0 + c / 64 = b0 := by omega
    have e2 : 0x80 + c % 64 = b1 := by omega
    rw [e1, e2]
  · unfold utf8Len
    rw [if_neg (by omega), if_pos hc2]

/-- Reconstructing a 3-byte encoding from its decoded bytes. -/
theorem utf8Encode_eq_three {c b0 b1 b2 : Nat} (hb0 : 0xE0 ≤ b0) (hb0' : b0 < 0xF0)
    (hb1 : 0x80 ≤ b1) (hb1' : b1 < 0xC0) (hb2 : 0x80 ≤ b2) (hb2' : b2 < 0xC0)
    (hge : 0x800 ≤ c)
    (hc : (b0 - 0xE0) * 4096 + (b1 - 0x80) * 64 + (b2 - 0x80) = c) :
    utf8Encode c = [b0, b1, b2] ∧ utf8Len c = 3 := by
  have hc3 : c < 0x10000 := by omega
  constructor
  · unfold utf8Encode
    rw [if_neg (by omega), if_neg (by omega), if_pos hc3]
    have e1 : 0xE0 + c / 4096 = b0 := by omega
    have e2 : 0x80 + c / 64 % 64 = b1 := by omega
    have e3 : 0x80 + c % 64 = b2 := by omega
    rw [e1, e2, e3]
  · unfold utf8Len
    rw [if_neg (by omega), if_neg (by omega), if_pos hc3]

/-- Reconstructing a 4-byte encoding from its decoded bytes. -/
theorem utf8Encode_eq_four {c b0 b1 b2 b3 : Nat} (hb0 : 0xF0 ≤ b0) (hb0' : b0 < 0xF5)
    (hb1 : 0x80 ≤ b1) (hb1' : b1 < 0xC0) (hb2 : 0x80 ≤ b2) (hb2' : b2 < 0xC0)
    (hb3 : 0x80 ≤ b3) (hb3' : b3 < 0xC0) (hge : 0x10000 ≤ c) (hlt : c < 0x110000)
    (hc : (b0 - 0xF0) * 262144 + (b1 - 0x80) * 4096 + (b2 - 0x80) * 64 + (b3 - 0x80) = c) :
    utf8Encode c = [b0, b1, b2, b3] ∧ utf8Len c = 4 ∧ IsScalar c = true := by
  refine ⟨?_, ?_, (IsScalar_true_iff _).mpr (by omega)⟩
  · unfold utf8Encode
    rw [if_neg (by omega), if_neg (by omega), if_neg (by omega)]
    have e1 : 0xF0 + c / 262144 = b0 := by omega
    have e2 : 0x80 + c / 4096 % 64 = b1 := by omega
    have e3 : 0x80 + c / 64 % 64 = b2 := by omega
    have e4 : 0x80 + c % 64 = b3 := by omega
    rw [e1, e2, e3, e4]
  · unfold utf8Len
    rw [if_neg (by omega), if_neg (by omega), if_neg (by omega)]

/-- Soundness of the decoder: a successful decode means the list starts with
the canonical encoding of a scalar value. -/
theorem decode_correct {l : List Nat} {c : Nat} (h : decodeUtf8? l = some c) :
    IsScalar c = true ∧ utf8Len c ≤ l.length ∧ l = utf8Encode c ++ l.drop (utf8Len c) := by
  match l with
  | [] => simp [decodeUtf8?] at h
  | b0 :: rest =>
    by_cases h1 : b0 < 0x80
    · have hbc : b0 = c := by
        simp only [decodeUtf8?] at h
        rw [if_pos h1] at h
        exact Option.some.inj h
      subst hbc
      have he : utf8Encode b0 = [b0] := by
        unfold utf8Encode
        rw [if_pos h1]
      have hl : utf8Len b0 = 1 := by
        unfold utf8Len
        rw [if_pos h1]
      refine ⟨(IsScalar_true_iff _).mpr (by omega), ?_, ?_⟩
      · rw [hl]
        simp
      · rw [hl, he]
        simp
    · by_cases h2 : b0 < 0xC2
      · simp only [decodeUtf8?] at h
        rw [if_neg h1, if_pos h2] at h
        exact Option.noConfusion h
      · by_cases h3 : b0 < 0xE0
        · -- two-byte form
          match rest with
          | [] =>
            simp only [decodeUtf8?] at h
            rw [if_neg h1, if_neg h2, if_pos h3] at h
            exact Option.noConfusion h
          | b1 :: rest1 =>
            simp only [decodeUtf8?] at h
            rw [if_neg h1, if_neg h2, if_pos h3] at h
            by_cases hb1 : contByte b1 = true
            · rw [if_pos hb1] at h
              have hc : (b0 - 0xC0) * 64 + (b1 - 0x80) = c := Option.some.inj h
              have hcb := (contByte_true_iff b1).mp hb1
              obtain ⟨he, hl, hs⟩ := utf8Encode_eq_two (by omega) h3 hcb.1 hcb.2 hc
              refine ⟨hs, ?_, ?_⟩
              · rw [hl]
                simp only [List.length_cons]
                omega
              · rw [hl, he]
                simp
            · rw [if_neg hb1] at h
              exact Option.noConfusion h
        · by_cases h4 : b0 < 0xF0
          · -- three-byte form
            match rest with
            | [] =>
              simp only [decodeUtf8?] at h
              rw [if_neg h1, if_neg h2, if_neg h3, if_pos h4] at h
              exact Option.noConfusion h
            | [b1] =>
              simp only [decodeUtf8?] at h
              rw [if_neg h1, if_neg h2, if_neg h3, if_pos h4] at h
              exact Option.noConfusion h
            | b1 :: b2 :: rest2 =>
              simp only [decodeUtf8?] at h
              rw [if_neg h1, if_neg h2, if_neg h3, if_pos h4] at h
              by_cases hb : (contByte b1 && contByte b2) = true
              · rw [if_pos hb] at h
                rw [Bool.and_eq_true] at hb
                have hcb1 := (contByte_true_iff b1).mp hb.1
                have hcb2 := (contByte_true_iff b2).mp hb.2
                set c0 := (b0 - 0xE0) * 4096 + (b1 - 0x80) * 64 + (b2 - 0x80) with hc0
                by_cases hok : (decide (0x800 ≤ c0) && IsScalar c0) = true
                · rw [if_pos hok] at h
                  have hc : c0 = c := Option.some.inj h
                  rw [Bool.and_eq_true, decide_eq_true_eq] at hok
                  obtain ⟨he, hl⟩ := utf8Encode_eq_three (c := c) (by omega) h4 hcb1.1 hcb1.2
                    hcb2.1 hcb2.2 (by omega) (by omega)
                  subst hc
                  refine ⟨hok.2, ?_, ?_⟩
                  · rw [hl]
                    simp only [List.length_cons]
                    omega
                  · rw [hl, he]
                    simp
                · rw [if_neg hok] at h
                  exact Option.noConfusion h
              · rw [if_neg hb] at h
                exact Option.noConfusion h
          · by_cases h5 : b0 < 0xF5
            · -- four-byte form
              match rest with
              | [] =>
                simp only [decodeUtf8?] at h
                rw [if_neg h1, if_neg h2, if_neg h3, if_neg h4, if_pos h5] at h
                exact Option.noConfusion h
              | [b1] =>
                simp only [decodeUtf8?] at h
                rw [if_neg h1, if_neg h2, if_neg h3, if_neg h4, if_pos h5] at h
                exact Option.noConfusion h
              | [b1, b2] =>
                simp only [decodeUtf8?] at h
                rw [if_neg h1, if_neg h2, if_neg h3, if_neg h4, if_pos h5] at h
                exact Option.noConfusion h
              | b1 :: b2 :: b3 :: rest3 =>
                simp only [decodeUtf8?] at h
                rw [if_neg h1, if_neg h2, if_neg h3, if_neg h4, if_pos h5] at h
                by_cases hb : (contByte b1 && contByte b2 && contByte b3) = true
                · rw [if_pos hb] at h
                  rw [Bool.and_eq_true, Bool.and_eq_true] at hb
                  have hcb1 := (contByte_true_iff b1).mp hb.1.1
                  have hcb2 := (contByte_true_iff b2).mp hb.1.2
                  have hcb3 := (contByte_true_iff b3).mp hb.2
                  set c0 := (b0 - 0xF0) * 262144 + (b1 - 0x80) * 4096 + (b2 - 0x80) * 64 +
                    (b3 - 0x80) with hc0
                  by_cases hok : (decide (0x10000 ≤ c0) && decide (c0 < 0x110000)) = true
                  · rw [if_pos hok] at h
                    have hc : c0 = c := Option.some.inj h
                    rw [Bool.and_eq_true, decide_eq_true_eq, decide_eq_true_eq] at hok
                    obtain ⟨he, hl, hs⟩ := utf8Encode_eq_four (c := c) (by omega) h5 hcb1.1 hcb1.2
                      hcb2.1 hcb2.2 hcb3.1 hcb3.2 (by omega) (by omega) (by omega)
                    subst hc
                    refine ⟨hs, ?_, ?_⟩
                    · rw [hl]
                      simp only [List.length_cons]
                      omega
                    · rw [hl, he]
                      simp
                  · rw [if_neg hok] at h
                    exact Option.noConfusion h
                · rw [if_neg hb] at h
                  exact Option.noConfusion h
            · simp only [decodeUtf8?] at h
              rw [if_neg h1, if_neg h2, if_neg h3, if_neg h4, if_neg h5] at h
              exact Option.noConfusion h

/-! ### Validity and boundary lemmas -/

/-- Inversion for `ValidUTF8`: a nonempty valid list decodes its first scalar
value and the remainder is valid. -/
theorem valid_cases {l : List Nat} (h : ValidUTF8 l) :
    l = [] ∨ ∃ c, IsScalar c = true ∧ decodeUtf8? l = some c ∧
      ValidUTF8 (l.drop (utf8Len c)) := by
  cases h with
  | nil => exact Or.inl rfl
  | cons hc hrest =>
    rename_i c rest
    refine Or.inr ⟨c, hc, decode_encode c hc rest, ?_⟩
    have hlen : (utf8Encode c).length = utf8Len c := utf8Encode_length c
    rw [← hlen, List.drop_left]
    exact hrest

/-- A valid prefix of a valid list can be cancelled. -/
theorem valid_append_cancel {a b : List Nat} (hab : ValidUTF8 (a ++ b)) (ha : ValidUTF8 a) :
    ValidUTF8 b := by
  induction ha generalizing b with
  | nil => simpa using hab
  | cons hc _hrest ih =>
    rename_i c rest
    rw [List.append_assoc] at hab
    rcases valid_cases hab with hnil | ⟨c', _, hdec, hdrop⟩
    · exact absurd (List.append_eq_nil.mp hnil).1 (utf8Encode_ne_nil c)
    · rw [decode_encode c hc _] at hdec
      have hcc : c' = c := (Option.some.inj hdec).symm
      rw [hcc, ← utf8Encode_length c, List.drop_left] at hdrop
      exact ih hdrop

/-- Decoding one scalar value from a valid list leaves a valid list. -/
theorem valid_drop_of_decode {l : List Nat} {c : Nat} (hv : ValidUTF8 l)
    (h : decodeUtf8? l = some c) : ValidUTF8 (l.drop (utf8Len c)) := by
  rcases valid_cases hv with hnil | ⟨c', _, hdec, hdrop⟩
  · rw [hnil] at h
    simp [decodeUtf8?] at h
  · rw [h] at hdec
    obtain rfl := Option.some.inj hdec
    exact hdrop

/-- The first byte of a nonempty valid list is not a continuation byte. -/
theorem valid_head_not_cont {l : List Nat} {b : Nat} (hv : ValidUTF8 l)
    (h : l.get? 0 = some b) : contByte b = false := by
  cases hv with
  | nil => simp at h
  | cons hc hrest =>
    rename_i c rest
    obtain ⟨b0, tl, he, hb0, _⟩ := utf8Encode_shape c
    rw [he] at h
    simp at h
    rwa [← h]

/-- If the suffix from `pos` is valid (and `pos` is in range), `pos` is a
char boundary. -/
theorem boundary_of_valid_drop {l : List Nat} {pos : Nat} (hle : pos ≤ l.length)
    (hv : ValidUTF8 (l.drop pos)) : is_char_boundary l pos = true := by
  unfold is_char_boundary
  by_cases h0 : pos = 0
  · simp [h0]
  · rw [if_neg (by simpa using h0)]
    rcases Nat.lt_or_ge pos l.length with hlt | hge
    · have hget : l.get? pos = (l.drop pos).get? 0 := by
        rw [List.get?_drop, Nat.add_zero]
      rcases hh : (l.drop pos).get? 0 with _ | b
      · rw [List.get?_eq_none] at hh
        simp at hh
        omega
      · rw [hget, hh]
        simp [valid_head_not_cont hv hh]
    · have : pos = l.length := by omega
      rw [List.get?_eq_none.mpr (by omega)]
      simp [this]

/-- In a valid list, a position holding a non-continuation byte starts a new
scalar value: the suffix from there is valid. -/
theorem valid_drop_of_noncont {l : List Nat} (hv : ValidUTF8 l) :
    ∀ pos b, l.get? pos = some b → contByte b = false → ValidUTF8 (l.drop pos) := by
  induction hv with
  | nil =>
    intro pos b h _
    simp at h
  | cons hc hrest ih =>
    rename_i c rest
    intro pos b h hncont
    obtain ⟨b0, tl, he, hb0, htl⟩ := utf8Encode_shape c
    have hlen : (utf8Encode c).length = utf8Len c := utf8Encode_length c
    rcases Nat.lt_or_ge pos (utf8Len c) with hlt | hge
    · rcases Nat.eq_zero_or_pos pos with h0 | h0
      · subst h0
        simp
        exact ValidUTF8.cons hc hrest
      · -- inside the first encoding: the byte is a continuation byte
        have hin : (utf8Encode c).get? pos = some b := by
          rw [← List.get?_append (by omega)]
          exact h
        rcases pos with _ | p
        · omega
        · rw [he, List.get?_cons_succ] at hin
          rw [htl b (List.get?_mem hin)] at hncont
          exact Bool.noConfusion hncont
    · have hdrop : (utf8Encode c ++ rest).drop pos = rest.drop (pos - utf8Len c) := by
        rw [List.drop_append_eq_append_drop, List.drop_eq_nil_of_le (by omega),
          List.nil_append, hlen]
      rw [List.get?_append_right (by omega), hlen] at h
      rw [hdrop]
      exact ih (pos - utf8Len c) b h hncont

/-- On a valid list, a boundary position within range has a valid suffix. -/
theorem valid_drop_of_boundary {l : List Nat} {pos : Nat} (hv : ValidUTF8 l)
    (hb : is_char_boundary l pos = true) : ValidUTF8 (l.drop pos) := by
  unfold is_char_boundary at hb
  by_cases h0 : pos = 0
  · subst h0
    simpa using hv
  · rw [if_neg (by simpa using h0)] at hb
    rcases hh : l.get? pos with _ | b
    · rw [hh] at hb
      have : pos = l.length := by simpa using hb
      rw [this, List.drop_length]
      exact ValidUTF8.nil
    · rw [hh] at hb
      have hnc : contByte b = false := by simpa using hb
      exact valid_drop_of_noncont hv pos b hh hnc

/-- On a valid list, positions in range are boundaries exactly when their
suffix is valid. -/
theorem boundary_iff_valid_drop {l : List Nat} {pos : Nat} (hv : ValidUTF8 l)
    (hle : pos ≤ l.length) :
    is_char_boundary l pos = true ↔ ValidUTF8 (l.drop pos) :=
  ⟨valid_drop_of_boundary hv, boundary_of_valid_drop hle⟩

/-- The Bool validity checker is sound. -/
theorem valid_of_validB (l : List Nat) (h : validUtf8B l = true) : ValidUTF8 l := by
  rw [validUtf8B] at h
  split at h
  · rename_i hdec
    rw [List.isEmpty_iff] at h
    rw [h]
    exact ValidUTF8.nil
  · rename_i c hdec
    obtain ⟨hs, hlen, heq⟩ := decode_correct hdec
    have hne : l ≠ [] := by
      intro he
      rw [he] at hdec
      exact Option.noConfusion hdec
    have hlt : (l.drop (utf8Len c)).length < l.length := by
      have h1 := utf8Len_pos c
      have h2 : l.length ≠ 0 := fun h0 => hne (List.length_eq_zero.mp h0)
      simp only [List.length_drop]
      omega
    have hrest : ValidUTF8 (l.drop (utf8Len c)) := valid_of_validB _ h
    rw [heq]
    exact ValidUTF8.cons hs hrest
termination_by l.length
decreasing_by
  omega

/-- The Bool validity checker is complete. -/
theorem validB_of_valid {l : List Nat} (h : ValidUTF8 l) : validUtf8B l = true := by
  induction h with
  | nil =>
    rw [validUtf8B]
    split
    · rfl
    · rename_i c hdec
      simp [decodeUtf8?] at hdec
  | cons hc hrest ih =>
    rename_i c rest
    rw [validUtf8B]
    split
    · rename_i hdec
      rw [decode_encode c hc rest] at hdec
      exact Option.noConfusion hdec
    · rename_i c' hdec
      rw [decode_encode c hc rest] at hdec
      obtain rfl := Option.some.inj hdec
      rw [← utf8Encode_length, List.drop_left]
      exact ih

theorem validUtf8B_iff (l : List Nat) : validUtf8B l = true ↔ ValidUTF8 l :=
  ⟨valid_of_validB l, fun h => validB_of_valid h⟩

/-- A position holding a continuation byte is not a boundary (unless it is 0). -/
theorem boundary_false_of_cont {l : List Nat} {q b : Nat} (hq : q ≠ 0)
    (hg : l.get? q = some b) (hc : contByte b = true) :
    is_char_boundary l q = false := by
  unfold is_char_boundary
  rw [if_neg (by simpa using hq), hg]
  simp [hc]

/-- Position 0 is always a boundary. -/
theorem boundary_zero (l : List Nat) : is_char_boundary l 0 = true := by
  unfold is_char_boundary
  simp

/-- From any in-range position of a valid list, a boundary lies at most 3
bytes ahead, with no boundary strictly in between. -/
theorem exists_near_boundary {l : List Nat} (hv : ValidUTF8 l) :
    ∀ pos, pos ≤ l.length →
      ∃ p, pos ≤ p ∧ p ≤ l.length ∧ p - pos ≤ 3 ∧ is_char_boundary l p = true ∧
        ∀ q, pos ≤ q → q < p → is_char_boundary l q = false := by
  induction hv with
  | nil =>
    intro pos hle
    simp at hle
    subst hle
    exact ⟨0, le_rfl, by simp, by simp, boundary_zero [], fun q h1 h2 => by omega⟩
  | cons hc hrest ih =>
    rename_i c rest
    intro pos hle
    have hk : (utf8Encode c).length = utf8Len c := utf8Encode_length c
    have hk1 : 1 ≤ utf8Len c := utf8Len_pos c
    have hk4 : utf8Len c ≤ 4 := utf8Len_le_four c
    have hlen : (utf8Encode c ++ rest).length = utf8Len c + rest.length := by
      rw [List.length_append, hk]
    rcases Nat.eq_zero_or_pos pos with h0 | h0
    · subst h0
      exact ⟨0, le_rfl, by omega, by omega, boundary_zero _, fun q h1 h2 => by omega⟩
    · rcases Nat.lt_or_ge pos (utf8Len c) with hin | hout
      · -- strictly inside the first encoding: next boundary is its end
        refine ⟨utf8Len c, by omega, by omega, by omega, ?_, ?_⟩
        · apply boundary_of_valid_drop (by omega)
          rw [← hk, List.drop_left]
          exact hrest
        · intro q h1 h2
          obtain ⟨b0, tl, he, _, htl⟩ := utf8Encode_shape c
          have hq0 : q ≠ 0 := by omega
          have hqlt : q < (utf8Encode c).length := by omega
          have htlen : tl.length = utf8Len c - 1 := by
            have : (utf8Encode c).length = tl.length + 1 := by rw [he]; simp
            omega
          rcases q with _ | q'
          · omega
          · have hq' : q' < tl.length := by omega
            have hget : (utf8Encode c ++ rest).get? (q' + 1) = some (tl.get ⟨q', hq'⟩) := by
              rw [List.get?_append hqlt, he, List.get?_cons_succ]
              exact List.get?_eq_get hq'
            exact boundary_false_of_cont (by omega) hget (htl _ (tl.get_mem q' hq'))
      · -- past the first encoding: recurse into the rest
        obtain ⟨p', h1, h2, h3, h4, h5⟩ := ih (pos - utf8Len c) (by omega)
        refine ⟨utf8Len c + p', by omega, by omega, by omega, ?_, ?_⟩
        · apply boundary_of_valid_drop (by omega)
          have : (utf8Encode c ++ rest).drop (utf8Len c + p') = rest.drop p' := by
            rw [List.drop_append_eq_append_drop, List.drop_eq_nil_of_le (by omega), hk,
              List.nil_append, Nat.add_sub_cancel_left]
          rw [this]
          exact valid_drop_of_boundary hrest h4
        · intro q hq1 hq2
          have hqk : utf8Len c ≤ q := by omega
          by_contra hcon
          rw [Bool.not_eq_false] at hcon
          have hvq : ValidUTF8 ((utf8Encode c ++ rest).drop q) :=
            valid_drop_of_boundary (ValidUTF8.cons hc hrest) hcon
          have hdq : (utf8Encode c ++ rest).drop q = rest.drop (q - utf8Len c) := by
            rw [List.drop_append_eq_append_drop, List.drop_eq_nil_of_le (by omega), hk,
              List.nil_append]
          rw [hdq] at hvq
          have : is_char_boundary rest (q - utf8Len c) = true :=
            boundary_of_valid_drop (by omega) hvq
          rw [h5 (q - utf8Len c) (by omega) (by omega)] at this
          exact Bool.noConfusion this

/-! ### Behaviour of the accept-until loops -/

theorem until_byte_none {l : List Nat} {f : Nat → Bool} {pos : Nat}
    (h : l.get? pos = none) : until_byte_end l f pos = pos := by
  rw [until_byte_end]
  split
  · rfl
  · rename_i b h'
    rw [h] at h'
    exact Option.noConfusion h'

theorem until_byte_some {l : List Nat} {f : Nat → Bool} {pos b : Nat}
    (h : l.get? pos = some b) :
    until_byte_end l f pos = if f b then pos else until_byte_end l f (pos + 1) := by
  rw [until_byte_end]
  split
  · rename_i h'
    rw [h'] at h
    exact Option.noConfusion h
  · rename_i b' h'
    rw [h'] at h
    obtain rfl := Option.some.inj h
    rfl

theorem until_byte_le (l : List Nat) (f : Nat → Bool) (pos : Nat) :
    pos ≤ until_byte_end l f pos := by
  rcases h : l.get? pos with _ | b
  · rw [until_byte_none h]
  · rw [until_byte_some h]
    by_cases hf : f b
    · rw [if_pos hf]
    · rw [if_neg hf]
      have hlt : pos < l.length := by
        by_contra hge
        rw [List.get?_eq_none.mpr (Nat.le_of_not_lt hge)] at h
        exact Option.noConfusion h
      have hrec := until_byte_le l f (pos + 1)
      omega
termination_by l.length - pos
decreasing_by omega

theorem until_byte_le_length (l : List Nat) (f : Nat → Bool) (pos : Nat)
    (hle : pos ≤ l.length) : until_byte_end l f pos ≤ l.length := by
  rcases h : l.get? pos with _ | b
  · rw [until_byte_none h]
    exact hle
  · rw [until_byte_some h]
    by_cases hf : f b
    · rw [if_pos hf]
      exact hle
    · rw [if_neg hf]
      have hlt : pos < l.length := by
        by_contra hge
        rw [List.get?_eq_none.mpr (Nat.le_of_not_lt hge)] at h
        exact Option.noConfusion h
      exact until_byte_le_length l f (pos + 1) (by omega)
termination_by l.length - pos
decreasing_by omega

/-- Every byte passed over by the until-byte loop exists and falsifies `f`. -/
theorem until_byte_mid (l : List Nat) (f : Nat → Bool) (pos : Nat) :
    ∀ q, pos ≤ q → q < until_byte_end l f pos →
      ∃ b, l.get? q = some b ∧ f b = false := by
  rcases h : l.get? pos with _ | b
  · rw [until_byte_none h]
    intro q h1 h2
    omega
  · rw [until_byte_some h]
    by_cases hf : f b
    · rw [if_pos hf]
      intro q h1 h2
      omega
    · rw [if_neg hf]
      have hlt : pos < l.length := by
        by_contra hge
        rw [List.get?_eq_none.mpr (Nat.le_of_not_lt hge)] at h
        exact Option.noConfusion h
      intro q h1 h2
      rcases Nat.eq_or_lt_of_le h1 with rfl | hqgt
      · exact ⟨b, h, by simpa using hf⟩
      · exact until_byte_mid l f (pos + 1) q (by omega) h2
termination_by l.length - pos
decreasing_by omega

/-- The until-byte loop stops at end of input or at the first satisfying byte. -/
theorem until_byte_stop (l : List Nat) (f : Nat → Bool) (pos : Nat) :
    l.get? (until_byte_end l f pos) = none ∨
      ∃ b, l.get? (until_byte_end l f pos) = some b ∧ f b = true := by
  rcases h : l.get? pos with _ | b
  · rw [until_byte_none h]
    exact Or.inl h
  · rw [until_byte_some h]
    by_cases hf : f b
    · rw [if_pos hf]
      exact Or.inr ⟨b, h, hf⟩
    · rw [if_neg hf]
      have hlt : pos < l.length := by
        by_contra hge
        rw [List.get?_eq_none.mpr (Nat.le_of_not_lt hge)] at h
        exact Option.noConfusion h
      exact until_byte_stop l f (pos + 1)
termination_by l.length - pos
decreasing_by omega

theorem until_char_none {l : List Nat} {f : Nat → Bool} {pos : Nat}
    (h : decodeUtf8? (l.drop pos) = none) : until_char_end l f pos = pos := by
  rw [until_char_end]
  split
  · rfl
  · rename_i c h'
    rw [h] at h'
    exact Option.noConfusion h'

theorem until_char_some {l : List Nat} {f : Nat → Bool} {pos c : Nat}
    (h : decodeUtf8? (l.drop pos) = some c) :
    until_char_end l f pos = if f c then pos else until_char_end l f (pos + utf8Len c) := by
  rw [until_char_end]
  split
  · rename_i h'
    rw [h'] at h
    exact Option.noConfusion h
  · rename_i c' h'
    rw [h'] at h
    obtain rfl := Option.some.inj h
    rfl

/-- When a scalar decodes at `pos`, it fits inside the input. -/
theorem decode_at_le {l : List Nat} {pos c : Nat}
    (h : decodeUtf8? (l.drop pos) = some c) : pos + utf8Len c ≤ l.length := by
  obtain ⟨_, hlen, _⟩ := decode_correct h
  rw [List.length_drop] at hlen
  have hne : l.drop pos ≠ [] := by
    intro he
    rw [he] at h
    exact Option.noConfusion h
  have : pos < l.length := by
    by_contra hge
    exact hne (List.drop_eq_nil_of_le (Nat.le_of_not_lt hge))
  omega

theorem until_char_le (l : List Nat) (f : Nat → Bool) (pos : Nat) :
    pos ≤ until_char_end l f pos := by
  rcases h : decodeUtf8? (l.drop pos) with _ | c
  · rw [until_char_none h]
  · rw [until_char_some h]
    by_cases hf : f c
    · rw [if_pos hf]
    · rw [if_neg hf]
      have hk := utf8Len_pos c
      have hlt := decode_at_le h
      have hrec := until_char_le l f (pos + utf8Len c)
      omega
termination_by l.length - pos
decreasing_by
  have hk := utf8Len_pos c
  have hlt := decode_at_le h
  omega

theorem until_char_le_length (l : List Nat) (f : Nat → Bool) (pos : Nat)
    (hle : pos ≤ l.length) : until_char_end l f pos ≤ l.length := by
  rcases h : decodeUtf8? (l.drop pos) with _ | c
  · rw [until_char_none h]
    exact hle
  · rw [until_char_some h]
    by_cases hf : f c
    · rw [if_pos hf]
      exact hle
    · rw [if_neg hf]
      have hk := utf8Len_pos c
      have hlt := decode_at_le h
      exact until_char_le_length l f (pos + utf8Len c) (by omega)
termination_by l.length - pos
decreasing_by omega

/-- The until-char loop stops at a decode failure (in particular end of
input) or at the first satisfying char. -/
theorem until_char_stop (l : List Nat) (f : Nat → Bool) (pos : Nat) :
    decodeUtf8? (l.drop (until_char_end l f pos)) = none ∨
      ∃ c, decodeUtf8? (l.drop (until_char_end l f pos)) = some c ∧ f c = true := by
  rcases h : decodeUtf8? (l.drop pos) with _ | c
  · rw [until_char_none h]
    exact Or.inl h
  · rw [until_char_some h]
    by_cases hf : f c
    · rw [if_pos hf]
      exact Or.inr ⟨c, h, hf⟩
    · rw [if_neg hf]
      have hk := utf8Len_pos c
      have hlt := decode_at_le h
      exact until_char_stop l f (pos + utf8Len c)
termination_by l.length - pos
decreasing_by omega

/-- If the suffix at `pos` is valid, the suffix where the until-char loop
stops is still valid. -/
theorem until_char_valid (l : List Nat) (f : Nat → Bool) (pos : Nat)
    (hv : ValidUTF8 (l.drop pos)) : ValidUTF8 (l.drop (until_char_end l f pos)) := by
  rcases h : decodeUtf8? (l.drop pos) with _ | c
  · rw [until_char_none h]
    exact hv
  · rw [until_char_some h]
    by_cases hf : f c
    · rw [if_pos hf]
      exact hv
    · rw [if_neg hf]
      have hk := utf8Len_pos c
      have hlt := decode_at_le h
      have hv2 : ValidUTF8 (l.drop (pos + utf8Len c)) := by
        have := valid_drop_of_decode hv h
        rwa [List.drop_drop] at this
      exact until_char_valid l f (pos + utf8Len c) hv2
termination_by l.length - pos
decreasing_by omega

/-- The span consumed by the until-char loop is a concatenation of encodings
of chars that all falsify the predicate. -/
theorem until_char_flat (l : List Nat) (f : Nat → Bool) (pos : Nat) :
    ∃ cs : List Nat, sliceBytes l pos (until_char_end l f pos) = cs.flatMap utf8Encode ∧
      ∀ c ∈ cs, f c = false := by
  rcases h : decodeUtf8? (l.drop pos) with _ | c
  · rw [until_char_none h]
    refine ⟨[], ?_, by simp⟩
    simp [sliceBytes]
  · rw [until_char_some h]
    by_cases hf : f c
    · rw [if_pos hf]
      refine ⟨[], ?_, by simp⟩
      simp [sliceBytes]
    · rw [if_neg hf]
      have hk := utf8Len_pos c
      have hlt := decode_at_le h
      obtain ⟨cs, hcs, hcsf⟩ := until_char_flat l f (pos + utf8Len c)
      refine ⟨c :: cs, ?_, ?_⟩
      · obtain ⟨_, _, heq⟩ := decode_correct h
        rw [List.drop_drop] at heq
        have he : until_char_end l f (pos + utf8Len c) - pos =
            (utf8Encode c).length + (until_char_end l f (pos + utf8Len c) - (pos + utf8Len c)) := by
          have := until_char_le l f (pos + utf8Len c)
          rw [utf8Encode_length]
          omega
        unfold sliceBytes
        rw [heq, he, List.take_append]
        unfold sliceBytes at hcs
        rw [hcs]
        simp
      · intro x hx
        rw [List.mem_cons] at hx
        rcases hx with hx | hx
        · rw [hx]
          simpa using hf
        · exact hcsf x hx
termination_by l.length - pos
decreasing_by omega

/-! ### Behaviour of the boundary-skipping loop -/

theorem skip_loop_done {ph : ParseHelper} (h : is_at_utf8_boundary ph = true) :
    skip_to_next_utf8_char_boundary ph = some ph := by
  rw [skip_to_next_utf8_char_boundary, if_pos h]

theorem skip_loop_step {ph : ParseHelper} (h : is_at_utf8_boundary ph = false)
    (hlt : ph.byte_position < ph.input.length) :
    skip_to_next_utf8_char_boundary ph =
      skip_to_next_utf8_char_boundary { ph with byte_position := ph.byte_position + 1 } := by
  rw [skip_to_next_utf8_char_boundary, if_neg (by simp [h]), if_pos hlt]

/-- The skip loop reaches the first boundary at or after the current
position, provided one exists in range. -/
theorem skip_loop_reaches (p : Nat) (ph : ParseHelper)
    (hlow : ph.byte_position ≤ p) (hhigh : p ≤ ph.input.length)
    (hb : is_char_boundary ph.input p = true)
    (hmin : ∀ q, ph.byte_position ≤ q → q < p → is_char_boundary ph.input q = false) :
    skip_to_next_utf8_char_boundary ph = some { ph with byte_position := p } := by
  by_cases heq : ph.byte_position = p
  · have hbd : is_at_utf8_boundary ph = true := by
      unfold is_at_utf8_boundary
      rw [heq]
      exact hb
    rw [skip_loop_done hbd, ← heq]
  · have hlt : ph.byte_position < p := by omega
    have hf : is_at_utf8_boundary ph = false := hmin _ le_rfl hlt
    rw [skip_loop_step hf (by omega)]
    exact skip_loop_reaches p { ph with byte_position := ph.byte_position + 1 }
      (by simpa using hlt) (by simpa using hhigh) hb
      (fun q h1 h2 => hmin q (by simp at h1; omega) h2)
termination_by p - ph.byte_position
decreasing_by
  show p - (ph.byte_position + 1) < p - ph.byte_position
  omega


/-! ### State shapes of the accept operations -/

/-- `accept` either fails leaving the cursor untouched, or the needle matches
`input[pos..pos+len]` and the cursor advances past it. -/
theorem accept_cases (ph : ParseHelper) (bytes : List Nat) :
    accept ph bytes = (none, ph) ∨
      (bytes.length ≤ bytes_left ph ∧
        sliceBytes ph.input ph.byte_position (ph.byte_position + bytes.length) = bytes ∧
        accept ph bytes =
          (some bytes, { ph with byte_position := ph.byte_position + bytes.length })) := by
  unfold accept
  by_cases hlen : bytes.length > bytes_left ph
  · rw [if_pos hlen]
    exact Or.inl rfl
  · rw [if_neg hlen]
    by_cases heq : bytes = sliceBytes ph.input ph.byte_position (ph.byte_position + bytes.length)
    · rw [if_pos heq]
      refine Or.inr ⟨by omega, heq.symm, ?_⟩
      rw [← heq]
    · rw [if_neg heq]
      exact Or.inl rfl

/-- `accept_byte_with` either fails leaving the cursor untouched, or returns
the upcoming byte (which satisfies the predicate) and advances by one. -/
theorem accept_byte_with_cases (ph : ParseHelper) (f : Nat → Bool) :
    accept_byte_with ph f = (none, ph) ∨
      ∃ b, ph.input.get? ph.byte_position = some b ∧ f b = true ∧
        accept_byte_with ph f = (some b, { ph with byte_position := ph.byte_position + 1 }) := by
  unfold accept_byte_with upcoming_byte
  rcases h : ph.input.get? ph.byte_position with _ | b
  · simp only [h]
    exact Or.inl (by trivial)
  · simp only [h]
    by_cases hf : f b = true
    · rw [if_pos hf]
      exact Or.inr ⟨b, rfl, hf, rfl⟩
    · rw [if_neg hf]
      exact Or.inl rfl

/-- `accept_char_with` either fails leaving the cursor untouched, or returns
the span of the upcoming char (which satisfies the predicate) and advances by
its encoded length. -/
theorem accept_char_with_cases (ph : ParseHelper) (f : Nat → Bool) :
    accept_char_with ph f = (none, ph) ∨
      ∃ c, decodeUtf8? (ph.input.drop ph.byte_position) = some c ∧ f c = true ∧
        accept_char_with ph f =
          (some (sliceBytes ph.input ph.byte_position (ph.byte_position + utf8Len c)),
            { ph with byte_position := ph.byte_position + utf8Len c }) := by
  unfold accept_char_with upcoming_char leftover
  rcases h : decodeUtf8? (ph.input.drop ph.byte_position) with _ | c
  · simp only [h]
    exact Or.inl (by trivial)
  · simp only [h]
    by_cases hf : f c = true
    · rw [if_pos hf]
      exact Or.inr ⟨c, rfl, hf, rfl⟩
    · rw [if_neg hf]
      exact Or.inl rfl

/-- The cursor after `accept_one_or_more_whitespace` is either untouched or
the cursor after the underlying until-loop. -/
theorem accept_one_or_more_whitespace_snd (ph : ParseHelper) :
    (accept_one_or_more_whitespace ph).2 = ph ∨
      (accept_one_or_more_whitespace ph).2 =
        (accept_until_char_with ph (fun x => !is_whitespace x)).2 := by
  unfold accept_one_or_more_whitespace
  rcases h : upcoming_char ph with _ | c
  · simp only [h]
    exact Or.inl (by trivial)
  · simp only [h]
    by_cases hw : is_whitespace c
    · simp only [hw, Bool.not_true, Bool.false_eq_true, if_false]
      exact Or.inr (by trivial)
    · simp only [hw, Bool.not_false, if_true]
      exact Or.inl (by trivial)

/-- A successful literal `accept` with a valid needle preserves the Char
invariant. -/
theorem accept_inv {ph : ParseHelper} {s : List Nat} (hinv : CharInv ph)
    (hs : ValidUTF8 s) : (accept ph s).2.input = ph.input ∧ CharInv (accept ph s).2 := by
  obtain ⟨hv, hle, hvd⟩ := hinv
  rcases accept_cases ph s with h | ⟨hl, hsl, h⟩
  · rw [h]
    exact ⟨rfl, hv, hle, hvd⟩
  · rw [h]
    refine ⟨rfl, hv, ?_, ?_⟩
    · unfold bytes_left at hl
      show ph.byte_position + s.length ≤ ph.input.length
      omega
    · show ValidUTF8 (ph.input.drop (ph.byte_position + s.length))
      have hsplit : ph.input.drop ph.byte_position =
          s ++ ph.input.drop (ph.byte_position + s.length) := by
        conv =>
          lhs
          rw [← List.take_append_drop s.length (ph.input.drop ph.byte_position)]
        unfold sliceBytes at hsl
        rw [Nat.add_sub_cancel_left] at hsl
        rw [hsl, List.drop_drop]
      rw [hsplit] at hvd
      exact valid_append_cancel hvd hs

/-- `accept_char_with` preserves the Char invariant. -/
theorem accept_char_with_inv {ph : ParseHelper} (f : Nat → Bool) (hinv : CharInv ph) :
    (accept_char_with ph f).2.input = ph.input ∧ CharInv (accept_char_with ph f).2 := by
  obtain ⟨hv, hle, hvd⟩ := hinv
  rcases accept_char_with_cases ph f with h | ⟨c, hd, _, h⟩
  · rw [h]
    exact ⟨rfl, hv, hle, hvd⟩
  · rw [h]
    refine ⟨rfl, hv, decode_at_le hd, ?_⟩
    show ValidUTF8 (ph.input.drop (ph.byte_position + utf8Len c))
    have := valid_drop_of_decode hvd hd
    rwa [List.drop_drop] at this

/-- `accept_until_char_with` preserves the Char invariant. -/
theorem accept_until_char_with_inv {ph : ParseHelper} (f : Nat → Bool) (hinv : CharInv ph) :
    (accept_until_char_with ph f).2.input = ph.input ∧
      CharInv (accept_until_char_with ph f).2 := by
  obtain ⟨hv, hle, hvd⟩ := hinv
  exact ⟨rfl, hv, until_char_le_length _ f _ hle, until_char_valid _ f _ hvd⟩

/-- `accept_one_or_more_whitespace` preserves the Char invariant. -/
theorem accept_one_or_more_whitespace_inv {ph : ParseHelper} (hinv : CharInv ph) :
    (accept_one_or_more_whitespace ph).2.input = ph.input ∧
      CharInv (accept_one_or_more_whitespace ph).2 := by
  rcases accept_one_or_more_whitespace_snd ph with h | h
  · rw [h]
    exact ⟨rfl, hinv⟩
  · rw [h]
    exact accept_until_char_with_inv _ hinv

/-- Every Char-mode operation preserves the Char invariant. -/
theorem applyCharOp_inv {ph : ParseHelper} (op : CharOp) (hinv : CharInv ph) :
    (applyCharOp ph op).input = ph.input ∧ CharInv (applyCharOp ph op) := by
  cases op with
  | char_with f => exact accept_char_with_inv f hinv
  | char c => exact accept_char_with_inv _ hinv
  | lit s hs => exact accept_inv hinv hs
  | until_char_with f => exact accept_until_char_with_inv f hinv
  | until_char c => exact accept_until_char_with_inv _ hinv
  | until_ws => exact accept_until_char_with_inv _ hinv
  | ws => exact accept_char_with_inv _ hinv
  | zero_or_more_ws => exact accept_until_char_with_inv _ hinv
  | one_or_more_ws => exact accept_one_or_more_whitespace_inv hinv

/-- Any sequence of Char-mode operations preserves the Char invariant. -/
theorem runCharOps_inv {ph : ParseHelper} (ops : List CharOp) (hinv : CharInv ph) :
    (runCharOps ph ops).input = ph.input ∧ CharInv (runCharOps ph ops) := by
  induction ops generalizing ph with
  | nil => exact ⟨rfl, hinv⟩
  | cons op ops ih =>
    obtain ⟨h1, h2⟩ := applyCharOp_inv op hinv
    obtain ⟨h3, h4⟩ := ih h2
    exact ⟨by rw [runCharOps, List.foldl_cons, ← runCharOps, h3, h1], h4⟩

/-! ### Position bounds for all operations -/

/-- The skip-to-boundary loop keeps the input, never moves backwards, and
stays in range. -/
theorem skip_loop_bounds {ph ph' : ParseHelper}
    (h : skip_to_next_utf8_char_boundary ph = some ph') :
    ph'.input = ph.input ∧ ph.byte_position ≤ ph'.byte_position ∧
      (ph.byte_position ≤ ph.input.length → ph'.byte_position ≤ ph.input.length) := by
  rw [skip_to_next_utf8_char_boundary] at h
  by_cases hb : is_at_utf8_boundary ph = true
  · rw [if_pos hb] at h
    obtain rfl := Option.some.inj h
    exact ⟨rfl, le_rfl, fun h => h⟩
  · rw [if_neg hb] at h
    by_cases hlt : ph.byte_position < ph.input.length
    · rw [if_pos hlt] at h
      obtain ⟨h1, h2, h3⟩ := skip_loop_bounds h
      simp only at h1 h2 h3
      exact ⟨h1, by omega, fun _ => h3 (by omega)⟩
    · rw [if_neg hlt] at h
      exact Option.noConfusion h
termination_by ph.input.length - ph.byte_position
decreasing_by
  show ph.input.length - (ph.byte_position + 1) < ph.input.length - ph.byte_position
  omega

/-- Every exposed operation keeps the input and keeps the offset in range. -/
theorem applyCursorOp_bounds {ph : ParseHelper} (op : CursorOp)
    (hle : ph.byte_position ≤ ph.input.length) :
    (applyCursorOp ph op).input = ph.input ∧
      (applyCursorOp ph op).byte_position ≤ ph.input.length := by
  cases op with
  | skipn n =>
    show ((skip_bytes ph n).getD ph).input = ph.input ∧
      ((skip_bytes ph n).getD ph).byte_position ≤ ph.input.length
    unfold skip_bytes bytes_left
    by_cases h : n ≤ ph.input.length - ph.byte_position
    · rw [if_pos h]
      refine ⟨rfl, ?_⟩
      show ph.byte_position + n ≤ ph.input.length
      omega
    · rw [if_neg h]
      exact ⟨rfl, hle⟩
  | skip1 =>
    show ((skip_byte ph).getD ph).input = ph.input ∧
      ((skip_byte ph).getD ph).byte_position ≤ ph.input.length
    unfold skip_byte skip_bytes bytes_left
    by_cases h : 1 ≤ ph.input.length - ph.byte_position
    · rw [if_pos h]
      refine ⟨rfl, ?_⟩
      show ph.byte_position + 1 ≤ ph.input.length
      omega
    · rw [if_neg h]
      exact ⟨rfl, hle⟩
  | lit s =>
    show (accept ph s).2.input = ph.input ∧ (accept ph s).2.byte_position ≤ ph.input.length
    rcases accept_cases ph s with h | ⟨hl, _, h⟩
    · rw [h]
      exact ⟨rfl, hle⟩
    · rw [h]
      unfold bytes_left at hl
      refine ⟨rfl, ?_⟩
      show ph.byte_position + s.length ≤ ph.input.length
      omega
  | byte c =>
    show (accept_byte ph c).2.input = ph.input ∧
      (accept_byte ph c).2.byte_position ≤ ph.input.length
    unfold accept_byte
    rcases accept_byte_with_cases ph (fun x => c == x) with h | ⟨b, hb, _, h⟩
    · rw [h]
      exact ⟨rfl, hle⟩
    · rw [h]
      have hlt : ph.byte_position < ph.input.length := by
        by_contra hge
        rw [List.get?_eq_none.mpr (Nat.le_of_not_lt hge)] at hb
        exact Option.noConfusion hb
      refine ⟨rfl, ?_⟩
      show ph.byte_position + 1 ≤ ph.input.length
      omega
  | byte_with f =>
    show (accept_byte_with ph f).2.input = ph.input ∧
      (accept_byte_with ph f).2.byte_position ≤ ph.input.length
    rcases accept_byte_with_cases ph f with h | ⟨b, hb, _, h⟩
    · rw [h]
      exact ⟨rfl, hle⟩
    · rw [h]
      have hlt : ph.byte_position < ph.input.length := by
        by_contra hge
        rw [List.get?_eq_none.mpr (Nat.le_of_not_lt hge)] at hb
        exact Option.noConfusion hb
      refine ⟨rfl, ?_⟩
      show ph.byte_position + 1 ≤ ph.input.length
      omega
  | until_byte_with f => exact ⟨rfl, until_byte_le_length _ f _ hle⟩
  | until_byte c => exact ⟨rfl, until_byte_le_length _ _ _ hle⟩
  | char_with f =>
    rcases accept_char_with_cases ph f with h | ⟨c, hd, _, h⟩
    · show (accept_char_with ph f).2.input = ph.input ∧
        (accept_char_with ph f).2.byte_position ≤ ph.input.length
      rw [h]
      exact ⟨rfl, hle⟩
    · show (accept_char_with ph f).2.input = ph.input ∧
        (accept_char_with ph f).2.byte_position ≤ ph.input.length
      rw [h]
      exact ⟨rfl, decode_at_le hd⟩
  | char c =>
    show (accept_char ph c).2.input = ph.input ∧
      (accept_char ph c).2.byte_position ≤ ph.input.length
    unfold accept_char
    rcases accept_char_with_cases ph (fun x => x == c) with h | ⟨c', hd, _, h⟩
    · rw [h]
      exact ⟨rfl, hle⟩
    · rw [h]
      exact ⟨rfl, decode_at_le hd⟩
  | until_char_with f => exact ⟨rfl, until_char_le_length _ f _ hle⟩
  | until_char c => exact ⟨rfl, until_char_le_length _ _ _ hle⟩
  | until_ws => exact ⟨rfl, until_char_le_length _ _ _ hle⟩
  | ws =>
    show (accept_whitespace ph).2.input = ph.input ∧
      (accept_whitespace ph).2.byte_position ≤ ph.input.length
    unfold accept_whitespace
    rcases accept_char_with_cases ph (fun i => is_whitespace i) with h | ⟨c, hd, _, h⟩
    · rw [h]
      exact ⟨rfl, hle⟩
    · rw [h]
      exact ⟨rfl, decode_at_le hd⟩
  | zero_or_more_ws => exact ⟨rfl, until_char_le_length _ _ _ hle⟩
  | one_or_more_ws =>
    show (accept_one_or_more_whitespace ph).2.input = ph.input ∧
      (accept_one_or_more_whitespace ph).2.byte_position ≤ ph.input.length
    rcases accept_one_or_more_whitespace_snd ph with h | h
    · rw [h]
      exact ⟨rfl, hle⟩
    · rw [h]
      exact ⟨rfl, until_char_le_length _ _ _ hle⟩
  | to_boundary =>
    show ((skip_to_next_utf8_char_boundary ph).getD ph).input = ph.input ∧
      ((skip_to_next_utf8_char_boundary ph).getD ph).byte_position ≤ ph.input.length
    rcases hs : skip_to_next_utf8_char_boundary ph with _ | ph'
    · exact ⟨rfl, hle⟩
    · obtain ⟨h1, _, h3⟩ := skip_loop_bounds hs
      simp only [Option.getD_some]
      exact ⟨h1, h3 hle⟩

/-- Any sequence of operations keeps the input and keeps the offset in range. -/
theorem runCursorOps_bounds {ph : ParseHelper} (ops : List CursorOp)
    (hle : ph.byte_position ≤ ph.input.length) :
    (runCursorOps ph ops).input = ph.input ∧
      (runCursorOps ph ops).byte_position ≤ ph.input.length := by
  induction ops generalizing ph with
  | nil => exact ⟨rfl, hle⟩
  | cons op ops ih =>
    obtain ⟨h1, h2⟩ := applyCursorOp_bounds op hle
    obtain ⟨h3, h4⟩ := @ih (applyCursorOp ph op) (by rw [h1]; exact h2)
    rw [h1] at h3 h4
    exact ⟨h3, h4⟩

/-! ### Additional helper facts for the claims -/

/-- A fetched byte turns a drop into a cons. -/
theorem drop_cons_of_get? {l : List Nat} {n b : Nat} (h : l.get? n = some b) :
    l.drop n = b :: l.drop (n + 1) := by
  have hlt : n < l.length := by
    by_contra hge
    rw [List.get?_eq_none.mpr (Nat.le_of_not_lt hge)] at h
    exact Option.noConfusion h
  rw [List.drop_eq_getElem_cons hlt]
  have hb : l[n] = b := by
    have he := List.get?_eq_getElem? l n
    rw [he, List.getElem?_eq_getElem hlt] at h
    exact Option.some.inj h
  rw [hb]

/-- The `is_char_boundary` test agrees with the specification's wording of
the boundary condition. -/
theorem is_char_boundary_iff_spec (l : List Nat) (i : Nat) :
    is_char_boundary l i = true ↔ boundary_spec l i := by
  unfold is_char_boundary boundary_spec
  by_cases h0 : i = 0
  · simp [h0]
  · rw [if_neg (by simpa using h0)]
    rcases hh : l.get? i with _ | b
    · constructor
      · intro h
        exact Or.inr (Or.inl (by simpa using h))
      · intro h
        rcases h with h | h | ⟨b, hb, _⟩
        · exact absurd h h0
        · simp [h]
        · exact Option.noConfusion hb
    · constructor
      · intro h
        exact Or.inr (Or.inr ⟨b, rfl, by simpa using h⟩)
      · intro h
        rcases h with h | h | ⟨b', hb', hcb⟩
        · exact absurd h h0
        · rw [h, List.get?_eq_none.mpr le_rfl] at hh
          exact Option.noConfusion hh
        · obtain rfl := Option.some.inj hb'
          simp [hcb]

/-! ### The claims -/

/-- C10: at any position of any cursor (including end of input, in either
mode: the Char-mode `accept` delegates to the byte-mode one on the needle's
bytes), accepting an empty needle succeeds, returns an empty borrowed view
and leaves `byte_position` unchanged. -/
theorem c10_accept_empty_needle (ph : ParseHelper) :
    accept ph [] = (some [], ph) ∧ acceptStr ph [] = (some [], ph) := by
  have h : accept ph [] = (some [], ph) := by
    unfold accept
    rw [if_neg (by simp)]
    rw [if_pos (by simp [sliceBytes])]
    simp [sliceBytes]
  exact ⟨h, h⟩

/-- C7: `skip_byte` and `skip_bytes n` report the fatal out-of-range panic
exactly when `n > bytes_left`; otherwise they advance `byte_position` by
exactly `n` (resp. 1) with no clamping; on empty input any `skip_byte` is
fatal. -/
theorem c7_skip_bytes_panic_iff (ph : ParseHelper) (n : Nat) :
    (skip_bytes ph n = none ↔ bytes_left ph < n) ∧
    (n ≤ bytes_left ph →
      skip_bytes ph n = some { ph with byte_position := ph.byte_position + n }) ∧
    (skip_byte ph = none ↔ bytes_left ph < 1) ∧
    (1 ≤ bytes_left ph →
      skip_byte ph = some { ph with byte_position := ph.byte_position + 1 }) ∧
    (ph.input = [] → skip_byte ph = none) := by
  have hmain : ∀ m : Nat, (skip_bytes ph m = none ↔ bytes_left ph < m) ∧
      (m ≤ bytes_left ph →
        skip_bytes ph m = some { ph with byte_position := ph.byte_position + m }) := by
    intro m
    unfold skip_bytes
    by_cases h : m ≤ bytes_left ph
    · rw [if_pos h]
      exact ⟨by constructor <;> intro hx <;> [exact Option.noConfusion hx; omega],
        fun _ => rfl⟩
    · rw [if_neg h]
      exact ⟨by constructor <;> intro hx <;> [omega; rfl], fun hx => absurd hx h⟩
  refine ⟨(hmain n).1, (hmain n).2, (hmain 1).1, (hmain 1).2, ?_⟩
  intro hnil
  rcases (hmain 1).1 with ⟨_, h2⟩
  apply h2
  unfold bytes_left
  rw [hnil]
  simp

/-- C7 witness: on empty input `skip_byte` panics; on `"a"` at offset 0 it
advances to offset 1. -/
theorem c7_witness :
    skip_byte ⟨[], 0⟩ = none ∧ skip_bytes ⟨[0x61], 0⟩ 1 = some ⟨[0x61], 1⟩ := by
  constructor
  · exact (c7_skip_bytes_panic_iff ⟨[], 0⟩ 0).2.2.2.2 rfl
  · have h := (c7_skip_bytes_panic_iff ⟨[0x61], 0⟩ 1).2.1 (by decide)
    simpa using h

/-- C5: the checked Byte-to-Char conversion succeeds with the identical
cursor (same `byte_position`, same input) exactly when the position satisfies
the boundary condition as the spec words it (0, the length, or a byte that is
not a continuation byte), and returns the absent result exactly otherwise. -/
theorem c5_into_char_oriented_iff (ph : ParseHelper) :
    (into_char_oriented ph = some ph ↔ boundary_spec ph.input ph.byte_position) ∧
    (into_char_oriented ph = none ↔ ¬ boundary_spec ph.input ph.byte_position) := by
  unfold into_char_oriented is_at_utf8_boundary
  by_cases hb : is_char_boundary ph.input ph.byte_position = true
  · rw [hb]
    have hs := (is_char_boundary_iff_spec ph.input ph.byte_position).mp hb
    simp [hs]
  · have hb' : is_char_boundary ph.input ph.byte_position = false :=
      Bool.not_eq_true _ |>.mp hb
    rw [hb']
    have hs : ¬ boundary_spec ph.input ph.byte_position := fun hspec =>
      hb ((is_char_boundary_iff_spec ph.input ph.byte_position).mpr hspec)
    simp [hs]

/-- C2: every failed accept operation (literal, byte, byte-predicate, char,
char-predicate) leaves the cursor exactly as it was. -/
theorem c2_failed_accept_preserves_cursor (ph : ParseHelper) (bs : List Nat) (b c : Nat)
    (f g : Nat → Bool) :
    ((accept ph bs).1 = none → (accept ph bs).2 = ph) ∧
    ((accept_byte ph b).1 = false → (accept_byte ph b).2 = ph) ∧
    ((accept_byte_with ph f).1 = none → (accept_byte_with ph f).2 = ph) ∧
    ((accept_char ph c).1 = none → (accept_char ph c).2 = ph) ∧
    ((accept_char_with ph g).1 = none → (accept_char_with ph g).2 = ph) := by
  refine ⟨?_, ?_, ?_, ?_, ?_⟩
  · rcases accept_cases ph bs with h | ⟨_, _, h⟩
    · rw [h]
      intro _
      rfl
    · rw [h]
      intro hx
      exact Option.noConfusion hx
  · unfold accept_byte
    rcases accept_byte_with_cases ph (fun x => b == x) with h | ⟨b', _, _, h⟩
    · rw [h]
      intro _
      rfl
    · rw [h]
      intro hx
      simp at hx
  · rcases accept_byte_with_cases ph f with h | ⟨b', _, _, h⟩
    · rw [h]
      intro _
      rfl
    · rw [h]
      intro hx
      exact Option.noConfusion hx
  · unfold accept_char
    rcases accept_char_with_cases ph (fun x => x == c) with h | ⟨c', _, _, h⟩
    · rw [h]
      intro _
      rfl
    · rw [h]
      intro hx
      exact Option.noConfusion hx
  · rcases accept_char_with_cases ph g with h | ⟨c', _, _, h⟩
    · rw [h]
      intro _
      rfl
    · rw [h]
      intro hx
      exact Option.noConfusion hx

/-- C2 witness: failing accepts on the buffer `"a"` leave the cursor at 0. -/
theorem c2_witness :
    (accept ⟨[0x61], 0⟩ [0x62]).2 = ⟨[0x61], 0⟩ ∧
    (accept_byte ⟨[0x61], 0⟩ 0x62).2 = ⟨[0x61], 0⟩ ∧
    (accept_byte_with ⟨[0x61], 0⟩ (fun x => x == 0x62)).2 = ⟨[0x61], 0⟩ ∧
    (accept_char ⟨[0x61], 0⟩ 0x62).2 = ⟨[0x61], 0⟩ ∧
    (accept_char_with ⟨[0x61], 0⟩ (fun x => x == 0x62)).2 = ⟨[0x61], 0⟩ := by
  obtain ⟨h1, h2, h3, h4, h5⟩ := c2_failed_accept_preserves_cursor ⟨[0x61], 0⟩ [0x62] 0x62 0x62
    (fun x => x == 0x62) (fun x => x == 0x62)
  exact ⟨h1 (by decide), h2 (by decide), h3 (by decide), h4 (by decide), h5 (by decide)⟩

/-- The buffer `"\u00e9a"` (`C3 A9 61`) is valid UTF-8. -/
theorem valid_ea : ValidUTF8 [0xC3, 0xA9, 0x61] := by
  have h0 : ValidUTF8 [] := ValidUTF8.nil
  have h1 : ValidUTF8 [0x61] := by
    have h := ValidUTF8.cons (c := 0x61) (by decide) h0
    have he : utf8Encode 0x61 ++ [] = [0x61] := by decide
    rwa [he] at h
  have h2 := ValidUTF8.cons (c := 0xE9) (by decide) h1
  have he2 : utf8Encode 0xE9 ++ [0x61] = [0xC3, 0xA9, 0x61] := by decide
  rwa [he2] at h2

/-- The buffer `"\u00e9"` (`C3 A9`) is valid UTF-8. -/
theorem valid_e : ValidUTF8 [0xC3, 0xA9] := by
  have h := ValidUTF8.cons (c := 0xE9) (by decide) ValidUTF8.nil
  have he : utf8Encode 0xE9 ++ [] = [0xC3, 0xA9] := by decide
  rwa [he] at h

/-- C1: a Char-mode cursor over a valid UTF-8 buffer whose offset is in range
and on a codepoint boundary stays on a codepoint boundary (with the same
input and an in-range offset) after any sequence of the exposed Char-mode
operations (`accept_char_with`, `accept_char`, `accept`,
`accept_until_char_with` and its derivatives, and the whitespace variants).
Instantiating the sequence with every prefix shows the invariant holds on
entry to and exit from each operation. -/
theorem c1_char_boundary_invariant (ph : ParseHelper) (ops : List CharOp)
    (hv : ValidUTF8 ph.input) (hle : ph.byte_position ≤ ph.input.length)
    (hb : is_char_boundary ph.input ph.byte_position = true) :
    (runCharOps ph ops).input = ph.input ∧
      (runCharOps ph ops).byte_position ≤ ph.input.length ∧
      is_char_boundary ph.input (runCharOps ph ops).byte_position = true := by
  have hinv : CharInv ph := ⟨hv, hle, valid_drop_of_boundary hv hb⟩
  obtain ⟨h1, hv2, hle2, hvd2⟩ := runCharOps_inv ops hinv
  rw [h1] at hle2 hvd2
  exact ⟨h1, hle2, boundary_of_valid_drop hle2 hvd2⟩

/-- C1 witness: accepting the char `\u00e9` on `"\u00e9a"` lands on boundary 2. -/
theorem c1_witness :
    (runCharOps ⟨[0xC3, 0xA9, 0x61], 0⟩ [CharOp.char_with (fun x => x == 0xE9)]).byte_position
        ≤ 3 ∧
      is_char_boundary [0xC3, 0xA9, 0x61]
        (runCharOps ⟨[0xC3, 0xA9, 0x61], 0⟩
          [CharOp.char_with (fun x => x == 0xE9)]).byte_position = true := by
  obtain ⟨_, h2, h3⟩ := c1_char_boundary_invariant ⟨[0xC3, 0xA9, 0x61], 0⟩
    [CharOp.char_with (fun x => x == 0xE9)] valid_ea (by decide) (by decide)
  exact ⟨h2, h3⟩

/-- C9: under any sequence of exposed operations the offset stays within
`[0, len]`, `bytes_left` never underflows (it plus the offset is the length),
`done` holds exactly at the end of input, and the positions used by the
unchecked slicing inside both accept-until loops stay in bounds. -/
theorem c9_offset_in_range (ph : ParseHelper) (ops : List CursorOp) (f : Nat → Bool)
    (hle : ph.byte_position ≤ ph.input.length) :
    (runCursorOps ph ops).input = ph.input ∧
      (runCursorOps ph ops).byte_position ≤ (runCursorOps ph ops).input.length ∧
      bytes_left (runCursorOps ph ops) + (runCursorOps ph ops).byte_position =
        (runCursorOps ph ops).input.length ∧
      (done (runCursorOps ph ops) = true ↔
        (runCursorOps ph ops).byte_position = (runCursorOps ph ops).input.length) ∧
      (runCursorOps ph ops).byte_position ≤
        until_byte_end (runCursorOps ph ops).input f (runCursorOps ph ops).byte_position ∧
      until_byte_end (runCursorOps ph ops).input f (runCursorOps ph ops).byte_position ≤
        (runCursorOps ph ops).input.length ∧
      (runCursorOps ph ops).byte_position ≤
        until_char_end (runCursorOps ph ops).input f (runCursorOps ph ops).byte_position ∧
      until_char_end (runCursorOps ph ops).input f (runCursorOps ph ops).byte_position ≤
        (runCursorOps ph ops).input.length := by
  obtain ⟨h1, h2⟩ := runCursorOps_bounds ops hle
  rw [← h1] at h2
  refine ⟨h1, h2, ?_, ?_, until_byte_le _ f _, until_byte_le_length _ f _ h2,
    until_char_le _ f _, until_char_le_length _ f _ h2⟩
  · unfold bytes_left
    omega
  · unfold done bytes_left
    constructor
    · intro h
      simp only [beq_iff_eq] at h
      omega
    · intro h
      simp only [beq_iff_eq]
      omega

/-- C9 witness: after skipping one byte of `"ab"`, the offset is in range and
`done` correctly reports not-at-end. -/
theorem c9_witness :
    (runCursorOps ⟨[0x61, 0x62], 0⟩ [CursorOp.skip1]).byte_position ≤
      (runCursorOps ⟨[0x61, 0x62], 0⟩ [CursorOp.skip1]).input.length ∧
    (done (runCursorOps ⟨[0x61, 0x62], 0⟩ [CursorOp.skip1]) = true ↔
      (runCursorOps ⟨[0x61, 0x62], 0⟩ [CursorOp.skip1]).byte_position =
        (runCursorOps ⟨[0x61, 0x62], 0⟩ [CursorOp.skip1]).input.length) := by
  obtain ⟨_, h2, _, h4, _⟩ := c9_offset_in_range ⟨[0x61, 0x62], 0⟩ [CursorOp.skip1]
    (fun b => b == 0) (by decide)
  exact ⟨h2, h4⟩

/-- C3: every successful accept advances monotonically (`new_offset ≥
old_offset`), keeps the input, and the returned view is exactly
`input[old_offset..new_offset]` (for `accept_byte_with`, which returns the
byte itself, that view is the singleton of the returned byte); the two
accept-until operations always succeed with that same shape. -/
theorem c3_success_returns_consumed_span (ph : ParseHelper) (bs : List Nat)
    (f g : Nat → Bool) :
    (∀ s, (accept ph bs).1 = some s →
      ph.byte_position ≤ (accept ph bs).2.byte_position ∧
      (accept ph bs).2.input = ph.input ∧
      s = sliceBytes ph.input ph.byte_position (accept ph bs).2.byte_position) ∧
    (∀ b, (accept_byte_with ph f).1 = some b →
      ph.byte_position ≤ (accept_byte_with ph f).2.byte_position ∧
      (accept_byte_with ph f).2.input = ph.input ∧
      sliceBytes ph.input ph.byte_position (accept_byte_with ph f).2.byte_position = [b]) ∧
    (∀ s, (accept_char_with ph g).1 = some s →
      ph.byte_position ≤ (accept_char_with ph g).2.byte_position ∧
      (accept_char_with ph g).2.input = ph.input ∧
      s = sliceBytes ph.input ph.byte_position (accept_char_with ph g).2.byte_position) ∧
    (ph.byte_position ≤ (accept_until_byte_with ph f).2.byte_position ∧
      (accept_until_byte_with ph f).2.input = ph.input ∧
      (accept_until_byte_with ph f).1 =
        sliceBytes ph.input ph.byte_position (accept_until_byte_with ph f).2.byte_position) ∧
    (ph.byte_position ≤ (accept_until_char_with ph g).2.byte_position ∧
      (accept_until_char_with ph g).2.input = ph.input ∧
      (accept_until_char_with ph g).1 =
        sliceBytes ph.input ph.byte_position (accept_until_char_with ph g).2.byte_position) := by
  refine ⟨?_, ?_, ?_, ?_, ?_⟩
  · intro s hs
    rcases accept_cases ph bs with h | ⟨_, hsl, h⟩
    · rw [h] at hs
      exact Option.noConfusion hs
    · rw [h] at hs ⊢
      obtain rfl := Option.some.inj hs
      refine ⟨?_, rfl, ?_⟩
      · show ph.byte_position ≤ ph.byte_position + bs.length
        omega
      · show bs = sliceBytes ph.input ph.byte_position (ph.byte_position + bs.length)
        exact hsl.symm
  · intro b hb
    rcases accept_byte_with_cases ph f with h | ⟨b', hg, _, h⟩
    · rw [h] at hb
      exact Option.noConfusion hb
    · rw [h] at hb ⊢
      obtain rfl := Option.some.inj hb
      refine ⟨?_, rfl, ?_⟩
      · show ph.byte_position ≤ ph.byte_position + 1
        omega
      · show sliceBytes ph.input ph.byte_position (ph.byte_position + 1) = [b']
        unfold sliceBytes
        rw [drop_cons_of_get? hg]
        have hone : ph.byte_position + 1 - ph.byte_position = 1 := by omega
        rw [hone]
        simp
  · intro s hs
    rcases accept_char_with_cases ph g with h | ⟨c, hd, _, h⟩
    · rw [h] at hs
      exact Option.noConfusion hs
    · rw [h] at hs ⊢
      obtain rfl := Option.some.inj hs
      refine ⟨?_, rfl, rfl⟩
      show ph.byte_position ≤ ph.byte_position + utf8Len c
      omega
  · exact ⟨until_byte_le _ f _, rfl, rfl⟩
  · exact ⟨until_char_le _ g _, rfl, rfl⟩

/-- C3 witness: accepting `"a"` and the char `a` on `"ab"` both return
exactly `input[0..1]`. -/
theorem c3_witness :
    (0 ≤ (accept ⟨[0x61, 0x62], 0⟩ [0x61]).2.byte_position ∧
      (accept ⟨[0x61, 0x62], 0⟩ [0x61]).2.input = [0x61, 0x62] ∧
      [0x61] = sliceBytes [0x61, 0x62] 0 (accept ⟨[0x61, 0x62], 0⟩ [0x61]).2.byte_position) ∧
    (0 ≤ (accept_char_with ⟨[0x61, 0x62], 0⟩ (fun x => x == 0x61)).2.byte_position ∧
      (accept_char_with ⟨[0x61, 0x62], 0⟩ (fun x => x == 0x61)).2.input = [0x61, 0x62] ∧
      [0x61] = sliceBytes [0x61, 0x62] 0
        (accept_char_with ⟨[0x61, 0x62], 0⟩ (fun x => x == 0x61)).2.byte_position) :=
  ⟨(c3_success_returns_consumed_span ⟨[0x61, 0x62], 0⟩ [0x61] (fun x => x == 0x61)
      (fun x => x == 0x61)).1 [0x61] (by decide),
    (c3_success_returns_consumed_span ⟨[0x61, 0x62], 0⟩ [0x61] (fun x => x == 0x61)
      (fun x => x == 0x61)).2.2.1 [0x61] (by decide)⟩

/-- C6: over a valid UTF-8 buffer with an in-range offset,
`skip_into_char_oriented` advances forward to the nearest codepoint boundary
(at most 3 bytes ahead — exactly the remaining continuation bytes of the
codepoint the offset is inside, no boundary being skipped over — and 0 bytes
when already on a boundary) and then always succeeds: neither the internal
loop nor the final checked conversion can fail. -/
theorem c6_skip_into_char_oriented (ph : ParseHelper) (hv : ValidUTF8 ph.input)
    (hle : ph.byte_position ≤ ph.input.length) :
    ∃ p, skip_to_next_utf8_char_boundary ph = some { ph with byte_position := p } ∧
      skip_into_char_oriented ph = some { ph with byte_position := p } ∧
      ph.byte_position ≤ p ∧ p - ph.byte_position ≤ 3 ∧ p ≤ ph.input.length ∧
      is_char_boundary ph.input p = true ∧
      (∀ q, ph.byte_position ≤ q → q < p → is_char_boundary ph.input q = false) ∧
      (is_char_boundary ph.input ph.byte_position = true → p = ph.byte_position) := by
  obtain ⟨p, h1, h2, h3, h4, h5⟩ := exists_near_boundary hv ph.byte_position hle
  have hloop := skip_loop_reaches p ph h1 h2 h4 h5
  refine ⟨p, hloop, ?_, h1, h3, h2, h4, h5, ?_⟩
  · unfold skip_into_char_oriented
    rw [hloop, Option.some_bind]
    show (if !is_char_boundary ph.input p then none
      else some ({ ph with byte_position := p } : ParseHelper)) =
        some { ph with byte_position := p }
    rw [h4]
    simp
  · intro hb0
    by_contra hne
    have hlt : ph.byte_position < p := by omega
    rw [h5 ph.byte_position le_rfl hlt] at hb0
    exact Bool.noConfusion hb0

/-- C6 witness: from the middle of the 2-byte char `\u00e9` (offset 1 of
`C3 A9`), the skip variant advances to boundary 2 and succeeds. -/
theorem c6_witness :
    ∃ p, skip_to_next_utf8_char_boundary ⟨[0xC3, 0xA9], 1⟩ =
        some { input := [0xC3, 0xA9], byte_position := p } ∧
      skip_into_char_oriented ⟨[0xC3, 0xA9], 1⟩ =
        some { input := [0xC3, 0xA9], byte_position := p } ∧
      1 ≤ p ∧ p - 1 ≤ 3 ∧ p ≤ 2 ∧
      is_char_boundary [0xC3, 0xA9] p = true ∧
      (∀ q, 1 ≤ q → q < p → is_char_boundary [0xC3, 0xA9] q = false) ∧
      (is_char_boundary [0xC3, 0xA9] 1 = true → p = 1) :=
  c6_skip_into_char_oriented ⟨[0xC3, 0xA9], 1⟩ valid_e (by decide)

/-- C8: the two accept-until operations always succeed, consume exactly the
units (bytes resp. chars) on which the predicate is false, stop at the first
satisfying unit or at end of input (for chars: where decoding no longer
yields a unit), exclude the matching unit, and return exactly the consumed
span `input[start..stop]`. -/
theorem c8_accept_until_semantics (ph : ParseHelper) (f g : Nat → Bool)
    (hle : ph.byte_position ≤ ph.input.length) :
    ((accept_until_byte_with ph f).2.input = ph.input ∧
      ph.byte_position ≤ (accept_until_byte_with ph f).2.byte_position ∧
      (accept_until_byte_with ph f).2.byte_position ≤ ph.input.length ∧
      (accept_until_byte_with ph f).1 =
        sliceBytes ph.input ph.byte_position (accept_until_byte_with ph f).2.byte_position ∧
      (∀ q, ph.byte_position ≤ q → q < (accept_until_byte_with ph f).2.byte_position →
        ∃ b, ph.input.get? q = some b ∧ f b = false) ∧
      ((accept_until_byte_with ph f).2.byte_position = ph.input.length ∨
        ∃ b, ph.input.get? (accept_until_byte_with ph f).2.byte_position = some b ∧
          f b = true)) ∧
    ((accept_until_char_with ph g).2.input = ph.input ∧
      ph.byte_position ≤ (accept_until_char_with ph g).2.byte_position ∧
      (accept_until_char_with ph g).2.byte_position ≤ ph.input.length ∧
      (accept_until_char_with ph g).1 =
        sliceBytes ph.input ph.byte_position (accept_until_char_with ph g).2.byte_position ∧
      (∃ cs : List Nat, (accept_until_char_with ph g).1 = cs.flatMap utf8Encode ∧
        ∀ c ∈ cs, g c = false) ∧
      (decodeUtf8? (ph.input.drop (accept_until_char_with ph g).2.byte_position) = none ∨
        ∃ c, decodeUtf8? (ph.input.drop (accept_until_char_with ph g).2.byte_position) =
          some c ∧ g c = true)) := by
  constructor
  · refine ⟨rfl, until_byte_le _ f _, until_byte_le_length _ f _ hle, rfl, ?_, ?_⟩
    · exact until_byte_mid ph.input f ph.byte_position
    · rcases until_byte_stop ph.input f ph.byte_position with hstop | hstop
      · left
        have hge := List.get?_eq_none.mp hstop
        have hel := until_byte_le_length ph.input f ph.byte_position hle
        show until_byte_end ph.input f ph.byte_position = ph.input.length
        omega
      · right
        exact hstop
  · refine ⟨rfl, until_char_le _ g _, until_char_le_length _ g _ hle, rfl, ?_, ?_⟩
    · exact until_char_flat ph.input g ph.byte_position
    · exact until_char_stop ph.input g ph.byte_position

/-- C8 witness: scanning `"ab"` for the byte resp. char `b` returns the
consumed span shape and a decomposition into rejected chars. -/
theorem c8_witness :
    (accept_until_byte_with ⟨[0x61, 0x62], 0⟩ (fun x => x == 0x62)).1 =
      sliceBytes [0x61, 0x62] 0
        (accept_until_byte_with ⟨[0x61, 0x62], 0⟩ (fun x => x == 0x62)).2.byte_position ∧
    (∃ cs : List Nat, (accept_until_char_with ⟨[0x61, 0x62], 0⟩ (fun x => x == 0x62)).1 =
      cs.flatMap utf8Encode ∧ ∀ c ∈ cs, (c == 0x62) = false) := by
  obtain ⟨⟨_, _, _, h4, _, _⟩, _, _, _, _, h5, _⟩ := c8_accept_until_semantics
    ⟨[0x61, 0x62], 0⟩ (fun x => x == 0x62) (fun x => x == 0x62) (by decide)
  exact ⟨h4, h5⟩

/-- C4: whenever `slice_accepted_option` returns (it panics for no
well-behaved closure), the outcome is exactly one of the two shapes: the
closure returned `some` and the call returns the span
`input[start..end]` consumed by the closure together with the closure's final
(advanced) cursor, or the closure returned `none` and the call returns the
absent result with the cursor restored to exactly its pre-call state; and the
call does return whenever the closure only moved the cursor forward within
bounds. -/
theorem c4_slice_accepted_option_backtracking (ph : ParseHelper)
    (closure : ParseHelper → Option Unit × ParseHelper) :
    (∀ res, slice_accepted_option ph closure = some res →
      ((closure ph).1.isSome = true ∧
        res = (some (sliceBytes (closure ph).2.input ph.byte_position
          (closure ph).2.byte_position), (closure ph).2) ∧
        ph.byte_position ≤ (closure ph).2.byte_position) ∨
      ((closure ph).1 = none ∧ res = (none, ph))) ∧
    (ph.byte_position ≤ (closure ph).2.byte_position →
      (closure ph).2.byte_position ≤ (closure ph).2.input.length →
      ∃ res, slice_accepted_option ph closure = some res) := by
  rcases hcl : closure ph with ⟨a, ph2⟩
  have ha : (closure ph).1 = a := by rw [hcl]
  have h2 : (closure ph).2 = ph2 := by rw [hcl]
  unfold slice_accepted_option slice_accepted create_backup restore_backup mark sliceRange
  rw [ha, h2]
  by_cases hcond : ph.byte_position ≤ ph2.byte_position ∧ ph2.byte_position ≤ ph2.input.length
  · rw [if_pos hcond]
    rcases a with _ | u
    · simp only [Option.map_some']
      constructor
      · intro res h
        right
        exact ⟨by trivial, (Option.some.inj h).symm⟩
      · intro _ _
        exact ⟨(none, ph), rfl⟩
    · simp only [Option.map_some']
      constructor
      · intro res h
        left
        exact ⟨by trivial, (Option.some.inj h).symm, hcond.1⟩
      · intro _ _
        exact ⟨(some (sliceBytes ph2.input ph.byte_position ph2.byte_position), ph2), rfl⟩
  · rw [if_neg hcond]
    constructor
    · intro res h
      simp only [Option.map_none'] at h
      exact Option.noConfusion h
    · intro h1 h2
      exact absurd ⟨h1, h2⟩ hcond

/-- C4 witness: a closure that accepts the literal `"a"` on the buffer `"a"`
makes `slice_accepted_option` return. -/
theorem c4_witness :
    ∃ res, slice_accepted_option ⟨[0x61], 0⟩
      (fun st => ((accept st [0x61]).1.map (fun _ => ()), (accept st [0x61]).2)) =
        some res :=
  (c4_slice_accepted_option_backtracking ⟨[0x61], 0⟩
    (fun st => ((accept st [0x61]).1.map (fun _ => ()), (accept st [0x61]).2))).2
    (by decide) (by decide)

/-- C5 witness: offset 1 of `C3 A9` (a continuation byte) fails the checked
conversion; offset 0 succeeds with the identical cursor. -/
theorem c5_witness :
    into_char_oriented ⟨[0xC3, 0xA9], 1⟩ = none ∧
      into_char_oriented ⟨[0xC3, 0xA9], 0⟩ = some ⟨[0xC3, 0xA9], 0⟩ := by
  constructor
  · apply (c5_into_char_oriented_iff ⟨[0xC3, 0xA9], 1⟩).2.mpr
    intro h
    rcases h with h | h | ⟨b, hb, hc⟩
    · exact absurd h (by decide)
    · exact absurd h (by decide)
    · have hg : ([0xC3, 0xA9] : List Nat).get? 1 = some 0xA9 := rfl
      rw [hg] at hb
      rw [← Option.some.inj hb] at hc
      exact absurd hc (by decide)
  · exact (c5_into_char_oriented_iff ⟨[0xC3, 0xA9], 0⟩).1.mpr (Or.inl rfl)

/-- C10 witness: empty needle on empty input succeeds with the empty view. -/
theorem c10_witness : accept ⟨[], 0⟩ [] = (some [], ⟨[], 0⟩) :=
  (c10_accept_empty_needle ⟨[], 0⟩).1

end ParseHelper
